import Mathlib

/-!
Verification of the PUIPR ingestion/merge engine and its query layer.

The embedding mirrors the Go source (`src/app/main.go`, SQLite variant):

* `plex_users` rows and `user_ip_history` rows become Lean structures;
  the database is the pair of tables plus the AUTOINCREMENT counter of
  `user_ip_history.id`.
* Timestamps are stored as the RFC3339 UTC TEXT the Go code writes
  (`ts.Format(time.RFC3339)`); `rfc3339` reimplements that formatter on
  epoch seconds (proleptic Gregorian calendar, the year zero-padded to at
  least four digits and growing to five or more from year 10000 on).  The
  SQL comparisons — `>` in the upsert CASE arms and `ORDER BY last_seen`
  — use SQLite's BINARY collation, i.e. memcmp on the TEXT; this becomes
  the lexicographic character-list order `strLe`/`strGt` (the two agree
  on these ASCII strings).  That order coincides with epoch order only
  while both years have four digits: from epoch 253402300800 (year 10000)
  the encoding starts with "10000-…", which sorts below "2000-…".
* The per-item wall clock `time.Now().UTC()` is the explicit parameter
  `now`; items carrying a positive `date` ignore it.
* SQL execution errors are modelled by an oracle `fail : Nat → Bool`
  telling whether the statement for the i-th batch item fails; the
  `BEGIN … COMMIT / defer tx.Rollback()` bracket becomes: apply the new
  state only when no item failed.
-/

/-- One element of the JSON ingestion batch (Go struct `TautulliItem`). -/
structure TautulliItem where
  user_id : Int
  user : String
  friendly_name : Option String
  user_thumb : Option String
  ip_address : Option String
  date : Option Int
deriving DecidableEq, Repr

/-- SQLite's BINARY collation on TEXT: bytewise (memcmp) comparison,
modelled as lexicographic comparison of the character lists (the two agree
on the UTF-8 strings involved, which are ASCII). -/
def charListLe : List Char → List Char → Bool
  | [], _ => true
  | _ :: _, [] => false
  | a :: as, b :: bs => if a < b then true else if b < a then false else charListLe as bs

/-- `a <= b` on TEXT under the BINARY collation. -/
def strLe (a b : String) : Bool := charListLe a.data b.data

/-- `a > b` on TEXT: the comparison of the upsert `CASE WHEN … > … ` arms. -/
def strGt (a b : String) : Bool := !strLe a b

/-- Decimal digits of `n`, zero-padded on the left to width `w` (the `%04d`
style padding of Go's year/month/day/time fields). -/
def padNum (w : Nat) (n : Nat) : List Char :=
  let ds := (Nat.repr n).data
  List.replicate (w - ds.length) '0' ++ ds

/-- Civil date (year, month, day) of a day count relative to 1970-01-01,
proleptic Gregorian — the calendar arithmetic inside Go's `Time.Format`. -/
def civilFromDays (z0 : Int) : Int × Nat × Nat :=
  let z := z0 + 719468
  let era : Int := z.fdiv 146097
  let doe : Nat := (z.fmod 146097).toNat
  let yoe : Nat := ((doe - doe / 1460) + doe / 36524 - doe / 146096) / 365
  let doy : Nat := doe - (365 * yoe + yoe / 4 - yoe / 100)
  let mp : Nat := (5 * doy + 2) / 153
  let d : Nat := doy - (153 * mp + 2) / 5 + 1
  let m : Nat := if mp < 10 then mp + 3 else mp - 9
  (yoe + era * 400 + (if m ≤ 2 then 1 else 0), m, d)

/-- `time.Unix(e, 0).UTC().Format(time.RFC3339)`: the RFC3339 UTC encoding
of an epoch second, `"YYYY-MM-DDTHH:MM:SSZ"` with the year zero-padded to at
least four digits (five or more digits from year 10000 on). -/
def rfc3339 (e : Int) : String :=
  let days : Int := e.fdiv 86400
  let sod : Nat := (e.fmod 86400).toNat
  let c := civilFromDays days
  let y := c.1
  let yearChars := if y < 0 then '-' :: padNum 4 (-y).toNat else padNum 4 y.toNat
  String.mk (yearChars ++ '-' :: padNum 2 c.2.1 ++ '-' :: padNum 2 c.2.2 ++
    'T' :: padNum 2 (sod / 3600) ++ ':' :: padNum 2 (sod % 3600 / 60) ++
    ':' :: padNum 2 (sod % 60) ++ ['Z'])

example : rfc3339 0 = "1970-01-01T00:00:00Z" := by decide
example : rfc3339 1000 = "1970-01-01T00:16:40Z" := by decide
example : rfc3339 946684800 = "2000-01-01T00:00:00Z" := by decide
example : rfc3339 253402300799 = "9999-12-31T23:59:59Z" := by decide
example : rfc3339 253402300800 = "10000-01-01T00:00:00Z" := by decide

/-- A row of the `plex_users` table; `last_seen` is the stored RFC3339 TEXT. -/
structure UserRow where
  id : Int
  username : String
  friendly_name : Option String
  user_thumb : Option String
  last_seen : String
deriving DecidableEq, Repr

/-- A row of the `user_ip_history` table; `rowid` is the AUTOINCREMENT
surrogate primary key `id`; the watermarks are the stored RFC3339 TEXT. -/
structure IPRow where
  rowid : Nat
  user_id : Int
  ip : String
  first_seen : String
  last_seen : String
deriving DecidableEq, Repr

/-- The persisted store: both tables plus the next AUTOINCREMENT value. -/
structure DB where
  users : List UserRow
  history : List IPRow
  nextId : Nat
deriving DecidableEq, Repr

def emptyDB : DB := ⟨[], [], 0⟩

/-- `CASE WHEN a > b THEN a ELSE b END` from both upsert statements — on the
stored TEXT, under the BINARY collation. -/
def bump (a b : String) : String := if strGt a b then a else b

/-- Effective epoch second of an item: `ts := time.Now().UTC(); if it.Date
!= nil && *it.Date > 0 { ts = time.Unix(*it.Date, 0).UTC() }`. -/
def effEpoch (now : Int) (it : TautulliItem) : Int :=
  match it.date with
  | some d => if d > 0 then d else now
  | none => now

/-- The TEXT the statements bind for an item: `tsStr := ts.Format(time.RFC3339)`. -/
def effectiveTs (now : Int) (it : TautulliItem) : String :=
  rfc3339 (effEpoch now it)

/-- The address an item contributes, if any: `it.IPAddress != nil &&
*it.IPAddress != ""`. -/
def itemIP (it : TautulliItem) : Option String :=
  match it.ip_address with
  | some ip => if ip = "" then none else some ip
  | none => none

/-- `INSERT INTO plex_users … ON CONFLICT(id) DO UPDATE SET username=excluded…,
last_seen=CASE WHEN plex_users.last_seen > excluded.last_seen THEN
plex_users.last_seen ELSE excluded.last_seen END`. -/
def upsertUser (it : TautulliItem) (ts : String) (us : List UserRow) : List UserRow :=
  if us.any fun u => u.id = it.user_id then
    us.map fun u =>
      if u.id = it.user_id then
        { u with
          username := it.user
          friendly_name := it.friendly_name
          user_thumb := it.user_thumb
          last_seen := bump u.last_seen ts }
      else u
  else
    us ++ [⟨it.user_id, it.user, it.friendly_name, it.user_thumb, ts⟩]

/-- `INSERT INTO user_ip_history (user_id, ip, first_seen, last_seen)
VALUES (?, ?, ?, ?) ON CONFLICT(user_id, ip) DO UPDATE SET
last_seen=CASE WHEN user_ip_history.last_seen > excluded.last_seen THEN
user_ip_history.last_seen ELSE excluded.last_seen END`; a fresh row takes
the next AUTOINCREMENT id and `first_seen = last_seen = ts`. -/
def upsertIP (uid : Int) (ip : String) (ts : String) (h : List IPRow) (nid : Nat) :
    List IPRow × Nat :=
  if h.any fun r => r.user_id = uid ∧ r.ip = ip then
    (h.map fun r =>
      if r.user_id = uid ∧ r.ip = ip then
        { r with last_seen := bump r.last_seen ts }
      else r, nid)
  else
    (h ++ [⟨nid, uid, ip, ts, ts⟩], nid + 1)

/-- The body of the loop in `ingestItems`: compute the effective timestamp,
upsert the user, and upsert the (user, address) pair when an address is
present and non-empty. -/
def ingestItem (now : Int) (db : DB) (it : TautulliItem) : DB :=
  match itemIP it with
  | some ip =>
    ⟨upsertUser it (effectiveTs now it) db.users,
     (upsertIP it.user_id ip (effectiveTs now it) db.history db.nextId).1,
     (upsertIP it.user_id ip (effectiveTs now it) db.history db.nextId).2⟩
  | none => ⟨upsertUser it (effectiveTs now it) db.users, db.history, db.nextId⟩

/-- `ingestItems` with every statement succeeding: the committed state of the
transaction. -/
def ingestItems (now : Int) (arr : List TautulliItem) (db : DB) : DB :=
  arr.foldl (ingestItem now) db

/-- Several ingest calls in sequence (push endpoint and/or poller cycles). -/
def applyBatches (now : Int) (batches : List (List TautulliItem)) (db : DB) : DB :=
  batches.foldl (fun db b => ingestItems now b db) db

/-- The loop of `ingestItems` with a store-error oracle: `fail i = true` means
the SQL statement for item `i` returns an error, and the function returns
that error (`return fmt.Errorf(…)`) without committing. -/
def runItemsFrom (fail : Nat → Bool) (now : Int) (i : Nat) (db : DB) :
    List TautulliItem → Except Nat DB
  | [] => Except.ok db
  | it :: rest =>
    if fail i then Except.error i
    else runItemsFrom fail now (i + 1) (ingestItem now db it) rest

/-- The transaction bracket around the loop: `BEGIN; …; COMMIT`, with
`defer tx.Rollback()` discarding every effect when an item errored. -/
def applyIngestTx (fail : Nat → Bool) (now : Int) (arr : List TautulliItem)
    (db : DB) : DB :=
  match runItemsFrom fail now 0 db arr with
  | Except.ok db2 => db2
  | Except.error _ => db

example : ingestItems 7 [⟨1, "alice", none, none, some "10.0.0.5", some 1000⟩] emptyDB
    = ⟨[⟨1, "alice", none, none, rfc3339 1000⟩],
       [⟨0, 1, "10.0.0.5", rfc3339 1000, rfc3339 1000⟩], 1⟩ := by
  decide

example : ingestItems 7
      [⟨1, "alice", none, none, some "10.0.0.5", some 1000⟩,
       ⟨1, "alice", none, none, some "10.0.0.5", some 500⟩] emptyDB
    = ⟨[⟨1, "alice", none, none, rfc3339 1000⟩],
       [⟨0, 1, "10.0.0.5", rfc3339 1000, rfc3339 1000⟩], 1⟩ := by
  decide

/-- Outcome of parsing the POST body in `handleIngest`: a bare JSON array, an
object `{data:[…]}` (tried only after the array parse fails), or neither. -/
inductive ParsedBody where
  | asArray (arr : List TautulliItem)
  | asObject (arr : List TautulliItem)
  | badJson
deriving DecidableEq, Repr

/-- The item list a parse outcome delivers, `none` when both unmarshals fail. -/
def bodyItems : ParsedBody → Option (List TautulliItem)
  | ParsedBody.asArray arr => some arr
  | ParsedBody.asObject arr => some arr
  | ParsedBody.badJson => none

/-- The three responses `handleIngest` can produce after the auth check:
`{"ingested": n}`, `http.Error(w, "bad json", 400)`, and
`http.Error(w, err.Error(), 500)` carrying the failing item's index. -/
inductive IngestResponse where
  | ok (ingested : Nat)
  | badRequest
  | internalError (idx : Nat)
deriving DecidableEq, Repr

/-- `handleIngest` after the bearer-token check: bad JSON → 400 with no
effect; empty batch → `{"ingested":0}` with no effect; otherwise run the
transaction and answer `{"ingested": len(arr)}` on commit or 500 on a store
error (state rolled back). -/
def handleIngest (fail : Nat → Bool) (now : Int) (body : ParsedBody) (db : DB) :
    IngestResponse × DB :=
  match bodyItems body with
  | none => (IngestResponse.badRequest, db)
  | some arr =>
    if arr.length = 0 then (IngestResponse.ok 0, db)
    else
      match runItemsFrom fail now 0 db arr with
      | Except.ok db2 => (IngestResponse.ok arr.length, db2)
      | Except.error i => (IngestResponse.internalError i, db)

/-- `SELECT … FROM user_ip_history uih WHERE uih.user_id = pu.id ORDER BY
uih.last_seen DESC LIMIT 1` from the `users_last_ip` view, the ordering
being the BINARY collation on the stored TEXT.  The view states no secondary
sort key, so among rows tied on `last_seen` the selected row is determined
by row storage order; the model keeps the first stored row achieving the
TEXT-maximal `last_seen`. -/
def lastIpRow (h : List IPRow) (u : Int) : Option IPRow :=
  (h.filter fun r => r.user_id = u).foldl
    (fun acc r =>
      match acc with
      | none => some r
      | some b => if strGt r.last_seen b.last_seen then some r else acc)
    none

/-- One row of the `users_last_ip` view joined back to `plex_users`
(the SELECT of `handleSummary`). -/
structure SummaryRow where
  user_id : Int
  username : String
  friendly_name : Option String
  last_ip : Option String
  updated_at : Option String
deriving DecidableEq, Repr

/-- The view row of one user: `last_ip`/`updated_at` come from the
`LIMIT 1` subqueries, and are NULL when the user has no history rows. -/
def viewRow (db : DB) (u : UserRow) : SummaryRow :=
  ⟨u.id, u.username, u.friendly_name,
    (lastIpRow db.history u.id).map (fun r => r.ip),
    (lastIpRow db.history u.id).map (fun r => r.last_seen)⟩

/-- ASCII lowercasing, the only case folding SQLite's `LIKE` applies. -/
def lowerAscii (c : Char) : Char := c.toLower

/-- Is `p` a contiguous sublist of `l`? -/
def subListOf (p : List Char) : List Char → Bool
  | [] => p.isEmpty
  | c :: rest => p.isPrefixOf (c :: rest) || subListOf p rest

/-- SQLite's `LIKE` matcher on character lists: `%` matches any (possibly
empty) run, `_` matches exactly one character, any other pattern character
matches ASCII-case-insensitively.  The fuel argument only bounds the
recursion; `pattern.length + text.length + 1` steps always suffice, since
every step consumes fuel 1 and shrinks pattern-plus-text by at least 1. -/
def likeFuel : Nat → List Char → List Char → Bool
  | 0, _, _ => false
  | _ + 1, [], t => t.isEmpty
  | f + 1, p :: ps, [] => if p = '%' then likeFuel f ps [] else false
  | f + 1, p :: ps, c :: cs =>
    if p = '%' then likeFuel f ps (c :: cs) || likeFuel f (p :: ps) cs
    else if p = '_' then likeFuel f ps cs
    else (lowerAscii p == lowerAscii c) && likeFuel f ps cs

/-- `hay LIKE '%' || q || '%'`: SQLite's LIKE with the two-sided `%` the
handler wraps around the filter; `%` and `_` inside `q` stay wildcards. -/
def likeMatch (hay q : String) : Bool :=
  likeFuel (q.data.length + hay.data.length + 3) ('%' :: q.data ++ ['%']) hay.data

/-- Modelled from the spec's words, for comparison with `likeMatch`:
"keep rows where username OR last_ip OR friendly_name contains it
case-insensitively" — literal (wildcard-free) substring containment under
ASCII case folding. -/
def containsCI (hay q : String) : Bool :=
  subListOf (q.data.map lowerAscii) (hay.data.map lowerAscii)

/-- Go's `unicode.IsSpace`: the White_Space code points trimmed by
`strings.TrimSpace`. -/
def goIsSpace (c : Char) : Bool :=
  (0x09 ≤ c.toNat && c.toNat ≤ 0x0D) || c.toNat = 0x20 || c.toNat = 0x85 ||
    c.toNat = 0xA0 || c.toNat = 0x1680 ||
    (0x2000 ≤ c.toNat && c.toNat ≤ 0x200A) ||
    c.toNat = 0x2028 || c.toNat = 0x2029 || c.toNat = 0x202F ||
    c.toNat = 0x205F || c.toNat = 0x3000

/-- `strings.TrimSpace` (Unicode-whitespace trim on both ends), modelled on
the character list of the query parameter. -/
def trimStr (s : String) : String :=
  String.mk (((s.data.dropWhile goIsSpace).reverse.dropWhile goIsSpace).reverse)

/-- `WHERE pu.username LIKE ? OR IFNULL(uli.last_ip,'') LIKE ? OR
IFNULL(pu.friendly_name,'') LIKE ?` with pattern `'%' + q + '%'`. -/
def rowMatches (q : String) (r : SummaryRow) : Bool :=
  likeMatch r.username q || likeMatch (r.last_ip.getD "") q ||
    likeMatch (r.friendly_name.getD "") q

/-- The ordering relation of `ORDER BY pu.username ASC` (BINARY collation). -/
def byUsername (a b : SummaryRow) : Prop := strLe a.username b.username = true

instance : DecidableRel byUsername := fun a b =>
  instDecidableEqBool (strLe a.username b.username) true

/-- `handleSummary`: trim the `q` parameter, keep the view rows matching the
filter when `q` is non-empty, and order by username ascending. -/
def summaryRows (db : DB) (rawQ : String) : List SummaryRow :=
  let q := trimStr rawQ
  let rows := db.users.map (viewRow db)
  let kept := if q = "" then rows else rows.filter (rowMatches q)
  List.insertionSort byUsername kept

/-- The ordering relation of `ORDER BY last_seen DESC`: descending in the
BINARY-collation order of the stored TEXT. -/
def byLastSeenDesc (a b : IPRow) : Prop := strLe b.last_seen a.last_seen = true

instance : DecidableRel byLastSeenDesc := fun a b =>
  instDecidableEqBool (strLe b.last_seen a.last_seen) true

/-- `SELECT ip, first_seen, last_seen FROM user_ip_history WHERE user_id = ?
ORDER BY last_seen DESC` from `handleUserIPs`. -/
def userIPs (db : DB) (uid : Int) : List IPRow :=
  List.insertionSort byLastSeenDesc (db.history.filter fun r => r.user_id = uid)

/-- The label `handleUserIPs` renders: the stored username, or `"User <id>"`
when the registry lookup leaves it empty. -/
def displayName (db : DB) (uid : Int) : String :=
  let uname := ((db.users.find? fun u => u.id = uid).map
    (fun u => u.username)).getD ""
  if uname = "" then "User " ++ toString uid else uname

/-- `SELECT last_seen FROM plex_users WHERE id = u`. -/
def userLastSeen (db : DB) (u : Int) : Option String :=
  ((db.users.find? fun r => r.id = u).map fun r => r.last_seen)

/-- `SELECT first_seen FROM user_ip_history WHERE user_id = u AND ip = s`. -/
def pairFirstSeen (db : DB) (u : Int) (s : String) : Option String :=
  ((db.history.find? fun r => r.user_id = u ∧ r.ip = s).map fun r => r.first_seen)

/-- `SELECT last_seen FROM user_ip_history WHERE user_id = u AND ip = s`. -/
def pairLastSeen (db : DB) (u : Int) (s : String) : Option String :=
  ((db.history.find? fun r => r.user_id = u ∧ r.ip = s).map fun r => r.last_seen)

example : likeMatch "alice" "ali" = true := by decide
example : likeMatch "alice" "ALI" = true := by decide
example : likeMatch "alice" "zzz" = false := by decide
example : likeMatch "abc" "a_c" = true := by decide
example : trimStr " ali " = "ali" := by decide

example : summaryRows (ingestItems 0
    [⟨1, "bob", none, none, some "10.0.0.1", some 100⟩,
     ⟨2, "alice", none, none, some "10.0.0.2", some 200⟩] emptyDB) ""
  = [⟨2, "alice", none, some "10.0.0.2", some (rfc3339 200)⟩,
     ⟨1, "bob", none, some "10.0.0.1", some (rfc3339 100)⟩] := by decide

example : userIPs (ingestItems 0
    [⟨1, "bob", none, none, some "10.0.0.1", some 100⟩,
     ⟨1, "bob", none, none, some "10.0.0.2", some 200⟩] emptyDB) 1
  = [⟨1, 1, "10.0.0.2", rfc3339 200, rfc3339 200⟩,
     ⟨0, 1, "10.0.0.1", rfc3339 100, rfc3339 100⟩] := by decide

/-! ### The bytewise TEXT order and the merge primitive -/

theorem charListLe_refl : ∀ a : List Char, charListLe a a = true := by
  intro a
  induction a with
  | nil => rfl
  | cons c as ih => simp [charListLe, lt_irrefl, ih]

theorem charListLe_total : ∀ a b : List Char, charListLe a b = true ∨ charListLe b a = true := by
  intro a
  induction a with
  | nil => intro b; exact Or.inl rfl
  | cons c as ih =>
    intro b
    cases b with
    | nil => exact Or.inr rfl
    | cons d bs =>
      rcases lt_trichotomy c d with h | h | h
      · left; simp [charListLe, h]
      · subst h
        rcases ih bs with h2 | h2
        · left; simp [charListLe, lt_irrefl, h2]
        · right; simp [charListLe, lt_irrefl, h2]
      · right; simp [charListLe, h]

theorem charListLe_trans : ∀ a b c : List Char,
    charListLe a b = true → charListLe b c = true → charListLe a c = true := by
  intro a
  induction a with
  | nil => intro b c _ _; rfl
  | cons x as ih =>
    intro b c h1 h2
    cases b with
    | nil => exact absurd h1 (by simp [charListLe])
    | cons y bs =>
      cases c with
      | nil => exact absurd h2 (by simp [charListLe])
      | cons z cs =>
        rcases lt_trichotomy x y with hxy | hxy | hxy
        · rcases lt_trichotomy y z with hyz | hyz | hyz
          · simp [charListLe, lt_trans hxy hyz]
          · subst hyz; simp [charListLe, hxy]
          · exfalso
            simp [charListLe, lt_asymm hyz, hyz] at h2
        · subst hxy
          rcases lt_trichotomy x z with hxz | hxz | hxz
          · simp [charListLe, hxz]
          · subst hxz
            simp only [charListLe, lt_irrefl, if_false] at h1 h2 ⊢
            exact ih bs cs h1 h2
          · exfalso
            simp [charListLe, lt_asymm hxz, hxz] at h2
        · exfalso
          simp [charListLe, lt_asymm hxy, hxy] at h1

theorem charListLe_antisymm : ∀ a b : List Char,
    charListLe a b = true → charListLe b a = true → a = b := by
  intro a
  induction a with
  | nil =>
    intro b h1 h2
    cases b with
    | nil => rfl
    | cons d bs => exact absurd h2 (by simp [charListLe])
  | cons c as ih =>
    intro b h1 h2
    cases b with
    | nil => exact absurd h1 (by simp [charListLe])
    | cons d bs =>
      rcases lt_trichotomy c d with h | h | h
      · exfalso
        simp [charListLe, h, lt_asymm h] at h2
      · subst h
        simp only [charListLe, lt_irrefl, if_false] at h1 h2
        rw [ih bs h1 h2]
      · exfalso
        simp [charListLe, h, lt_asymm h] at h1

theorem strLe_refl (a : String) : strLe a a = true := charListLe_refl a.data

theorem strLe_trans {a b c : String} (h1 : strLe a b = true) (h2 : strLe b c = true) :
    strLe a c = true := charListLe_trans a.data b.data c.data h1 h2

theorem strLe_total (a b : String) : strLe a b = true ∨ strLe b a = true :=
  charListLe_total a.data b.data

theorem strLe_antisymm {a b : String} (h1 : strLe a b = true) (h2 : strLe b a = true) :
    a = b := by
  cases a with
  | mk la =>
    cases b with
    | mk lb =>
      rw [show la = lb from charListLe_antisymm la lb h1 h2]

theorem strLe_of_strGt {a b : String} (h : strGt a b = true) : strLe b a = true := by
  unfold strGt at h
  rcases strLe_total a b with h2 | h2
  · rw [h2] at h
    cases h
  · exact h2

theorem strLe_of_not_strGt {a b : String} (h : strGt a b = false) : strLe a b = true := by
  unfold strGt at h
  cases h2 : strLe a b
  · rw [h2] at h
    cases h
  · rfl

theorem le_bump_left (a b : String) : strLe a (bump a b) = true := by
  unfold bump
  cases h : strGt a b
  · rw [if_neg Bool.false_ne_true]
    exact strLe_of_not_strGt h
  · rw [if_pos rfl]
    exact strLe_refl a

theorem le_bump_right (a b : String) : strLe b (bump a b) = true := by
  unfold bump
  cases h : strGt a b
  · rw [if_neg Bool.false_ne_true]
    exact strLe_refl b
  · rw [if_pos rfl]
    exact strLe_of_strGt h

theorem bump_absorb (a b : String) (h : strLe b a = true) : bump a b = a := by
  unfold bump
  cases hg : strGt a b
  · rw [if_neg Bool.false_ne_true]
    exact (strLe_antisymm (strLe_of_not_strGt hg) h).symm
  · rw [if_pos rfl]

theorem bump_cases (a b : String) : bump a b = a ∨ bump a b = b := by
  unfold bump
  split
  · exact Or.inl rfl
  · exact Or.inr rfl

theorem bump_comm (a b : String) : bump a b = bump b a := by
  unfold bump
  cases h1 : strGt a b <;> cases h2 : strGt b a
  · rw [if_neg Bool.false_ne_true, if_neg Bool.false_ne_true]
    exact strLe_antisymm (strLe_of_not_strGt h2) (strLe_of_not_strGt h1)
  · rw [if_neg Bool.false_ne_true, if_pos rfl]
  · rw [if_pos rfl, if_neg Bool.false_ne_true]
  · rw [if_pos rfl, if_pos rfl]
    exact strLe_antisymm (strLe_of_strGt h2) (strLe_of_strGt h1)

theorem bump_le {a b c : String} (h1 : strLe a c = true) (h2 : strLe b c = true) :
    strLe (bump a b) c = true := by
  rcases bump_cases a b with h | h <;> rw [h]
  · exact h1
  · exact h2

theorem bump_right_comm (t d1 d2 : String) :
    bump (bump t d1) d2 = bump (bump t d2) d1 := by
  have hle : ∀ x y z : String, strLe (bump (bump x y) z) (bump (bump x z) y) = true := by
    intro x y z
    apply bump_le
    · apply bump_le
      · exact strLe_trans (le_bump_left x z) (le_bump_left (bump x z) y)
      · exact le_bump_right (bump x z) y
    · exact strLe_trans (le_bump_right x z) (le_bump_left (bump x z) y)
  exact strLe_antisymm (hle t d1 d2) (hle t d2 d1)

theorem ingestItem_users (now : Int) (db : DB) (it : TautulliItem) :
    (ingestItem now db it).users = upsertUser it (effectiveTs now it) db.users := by
  cases h : itemIP it <;> simp [ingestItem, h]

theorem ingestItems_cons (now : Int) (it : TautulliItem) (arr : List TautulliItem)
    (db : DB) : ingestItems now (it :: arr) db = ingestItems now arr (ingestItem now db it) :=
  rfl

/-! ### C4: atomicity of a failing batch -/

theorem runItemsFrom_error (fail : Nat → Bool) (now : Int) :
    ∀ (arr : List TautulliItem) (j : Nat) (db : DB),
      (∃ i, j ≤ i ∧ i < j + arr.length ∧ fail i = true) →
      ∃ e, runItemsFrom fail now j db arr = Except.error e := by
  intro arr
  induction arr with
  | nil =>
    intro j db h
    obtain ⟨i, h1, h2, _⟩ := h
    simp at h2
    omega
  | cons it rest ih =>
    intro j db h
    by_cases hj : fail j = true
    · exact ⟨j, by simp [runItemsFrom, hj]⟩
    · obtain ⟨i, h1, h2, h3⟩ := h
      have hij : j + 1 ≤ i := by
        rcases Nat.eq_or_lt_of_le h1 with rfl | h
        · exact absurd h3 hj
        · exact h
      obtain ⟨e, he⟩ := ih (j + 1) (ingestItem now db it)
        ⟨i, hij, by simp at h2 ⊢; omega, h3⟩
      exact ⟨e, by simp [runItemsFrom, hj, he]⟩

theorem runItemsFrom_ok (fail : Nat → Bool) (now : Int) :
    ∀ (arr : List TautulliItem) (j : Nat) (db : DB),
      (∀ i, i < j + arr.length → fail i = false) →
      runItemsFrom fail now j db arr = Except.ok (ingestItems now arr db) := by
  intro arr
  induction arr with
  | nil => intro j db _; rfl
  | cons it rest ih =>
    intro j db h
    have hj : fail j = false := h j (by simp)
    have := ih (j + 1) (ingestItem now db it) (fun i hi => h i (by simp at hi ⊢; omega))
    simp [runItemsFrom, hj, this, ingestItems_cons]

/-- C4: a batch in which some item triggers a store error is rolled back as a
whole: the store after the failed transaction is exactly the store from
before the batch, whatever earlier items had already done. -/
theorem c4_failing_batch_rolls_back (fail : Nat → Bool) (now : Int)
    (arr : List TautulliItem) (db : DB)
    (h : ∃ i, i < arr.length ∧ fail i = true) :
    applyIngestTx fail now arr db = db := by
  obtain ⟨i, hlt, hf⟩ := h
  obtain ⟨e, he⟩ := runItemsFrom_error fail now arr 0 db ⟨i, Nat.zero_le i, by simpa, hf⟩
  unfold applyIngestTx
  rw [he]

theorem c4_failing_batch_rolls_back_witness :
    applyIngestTx (fun i => decide (i = 1)) 5
      [⟨1, "a", none, none, some "10.0.0.1", some 100⟩,
       ⟨2, "b", none, none, some "10.0.0.2", some 200⟩] emptyDB = emptyDB :=
  c4_failing_batch_rolls_back _ 5 _ emptyDB ⟨1, by decide, by decide⟩

/-! ### C6: ingest response contract -/

/-- C6 counterexample: on a top-level-unparseable body the handler does NOT
answer `{"ingested":0}`; it answers 400 Bad Request ("bad json"). -/
theorem c6_unparseable_not_ok_zero :
    handleIngest (fun _ => false) 0 ParsedBody.badJson emptyDB
      ≠ (IngestResponse.ok 0, emptyDB) := by
  decide

/-- C6 amended: the handler answers `{"ingested": len(arr)}` for a parsed
batch (with the whole batch ingested when no statement fails), answers
`{"ingested":0}` with no store mutation for an empty array or empty `data`
object, and answers 400 Bad Request with no store mutation — not
`{"ingested":0}` — when the body parses neither as an array nor as
`{data:[…]}`. -/
theorem c6_ingest_response (fail : Nat → Bool) (now : Int) (db : DB) :
    handleIngest fail now ParsedBody.badJson db = (IngestResponse.badRequest, db) ∧
    handleIngest fail now (ParsedBody.asArray []) db = (IngestResponse.ok 0, db) ∧
    handleIngest fail now (ParsedBody.asObject []) db = (IngestResponse.ok 0, db) ∧
    (∀ arr, arr ≠ [] → (∀ i, i < arr.length → fail i = false) →
      handleIngest fail now (ParsedBody.asArray arr) db
        = (IngestResponse.ok arr.length, ingestItems now arr db)) ∧
    (∀ arr, arr ≠ [] → (∀ i, i < arr.length → fail i = false) →
      handleIngest fail now (ParsedBody.asObject arr) db
        = (IngestResponse.ok arr.length, ingestItems now arr db)) := by
  refine ⟨rfl, rfl, rfl, ?_, ?_⟩ <;>
  · intro arr hne hok
    have hlen : ¬ arr.length = 0 := fun h0 => hne (List.length_eq_zero.mp h0)
    have hrun := runItemsFrom_ok fail now arr 0 db (by simpa using hok)
    simp only [handleIngest, bodyItems]
    rw [if_neg hlen, hrun]

theorem c6_ingest_response_witness :
    handleIngest (fun _ => false) 3 (ParsedBody.asObject []) emptyDB
      = (IngestResponse.ok 0, emptyDB) ∧
    handleIngest (fun _ => false) 3
      (ParsedBody.asArray [⟨1, "a", none, none, some "10.0.0.1", some 100⟩]) emptyDB
      = (IngestResponse.ok 1,
         ingestItems 3 [⟨1, "a", none, none, some "10.0.0.1", some 100⟩] emptyDB) :=
  ⟨(c6_ingest_response (fun _ => false) 3 emptyDB).2.2.1,
   (c6_ingest_response (fun _ => false) 3 emptyDB).2.2.2.1 _ (by decide)
     (fun _ _ => rfl)⟩

/-! ### C9: the first_seen/last_seen invariant -/

/-- Every history row has `first_seen ≤ last_seen` in the bytewise TEXT
order in which the program compares the stored RFC3339 strings. -/
def histFirstLeLast (db : DB) : Prop :=
  ∀ r ∈ db.history, strLe r.first_seen r.last_seen = true

theorem histFirstLeLast_ingestItem (now : Int) (db : DB) (it : TautulliItem)
    (h : histFirstLeLast db) : histFirstLeLast (ingestItem now db it) := by
  intro r hr
  unfold ingestItem at hr
  cases hip : itemIP it with
  | none => simp only [hip] at hr; exact h r hr
  | some ip =>
    simp only [hip] at hr
    unfold upsertIP at hr
    split at hr
    · simp only [List.mem_map] at hr
      obtain ⟨r0, hr0, rfl⟩ := hr
      split
      · exact strLe_trans (h r0 hr0) (le_bump_left _ _)
      · exact h r0 hr0
    · simp only [List.mem_append, List.mem_singleton] at hr
      rcases hr with h1 | rfl
      · exact h r h1
      · exact strLe_refl _

/-- C9 counterexample: the program does not maintain `first_seen ≤
last_seen` chronologically.  Create the pair at epoch 253402300800 (year
10000, TEXT "10000-01-01T00:00:00Z"), then merge epoch 946684800 (year
2000): the CASE compares the TEXT, where "10000-…" < "2000-…", so
`last_seen` becomes the encoding of the chronologically *earlier* instant
while `first_seen` keeps the later one. -/
theorem c9_first_seen_after_last_seen :
    pairFirstSeen (ingestItems 0
        [⟨1, "a", none, none, some "10.0.0.1", some 253402300800⟩,
         ⟨1, "a", none, none, some "10.0.0.1", some 946684800⟩] emptyDB) 1 "10.0.0.1"
      = some (rfc3339 253402300800) ∧
    pairLastSeen (ingestItems 0
        [⟨1, "a", none, none, some "10.0.0.1", some 253402300800⟩,
         ⟨1, "a", none, none, some "10.0.0.1", some 946684800⟩] emptyDB) 1 "10.0.0.1"
      = some (rfc3339 946684800) ∧
    strLe (rfc3339 253402300800) (rfc3339 946684800) = true ∧
    (946684800 : Int) < 253402300800 := by
  refine ⟨by decide, by decide, by decide, by decide⟩

/-- C9 amended: `first_seen ≤ last_seen` holds of every reachable store in
the bytewise TEXT order the program itself uses for its comparisons: a fresh
row has `first_seen = last_seen`, and a merge only ever moves `last_seen` up
in that order and never touches `first_seen`.  Chronologically (epoch
order) the invariant fails once timestamps straddle year 10000, because the
TEXT order then disagrees with epoch order. -/
theorem c9_first_seen_le_last_seen (now : Int) (arr : List TautulliItem) (db : DB)
    (h : histFirstLeLast db) : histFirstLeLast (ingestItems now arr db) := by
  induction arr generalizing db with
  | nil => exact h
  | cons it rest ih =>
    rw [ingestItems_cons]
    exact ih (ingestItem now db it) (histFirstLeLast_ingestItem now db it h)

theorem c9_first_seen_le_last_seen_witness :
    histFirstLeLast (ingestItems 5
      [⟨1, "a", none, none, some "10.0.0.1", some 100⟩,
       ⟨1, "a", none, none, some "10.0.0.1", some 40⟩,
       ⟨1, "a", none, none, some "10.0.0.2", none⟩] emptyDB) :=
  c9_first_seen_le_last_seen 5 _ emptyDB (fun r hr => by cases hr)

/-! ### C2: first_seen is set at pair creation and never changed -/

theorem find?_map_of_key (p : IPRow → Bool) (g : IPRow → IPRow)
    (hg : ∀ r, p (g r) = p r) (h : List IPRow) :
    (h.map g).find? p = (h.find? p).map g := by
  rw [List.find?_map, show (p ∘ g) = p from funext hg]

theorem find?_pair_upsertIP (uid : Int) (ip : String) (ts : String) (nid : Nat)
    (u : Int) (s : String) (r0 : IPRow) (h : List IPRow)
    (hf : (h.find? fun r => r.user_id = u ∧ r.ip = s) = some r0) :
    ∃ r1, ((upsertIP uid ip ts h nid).1.find? fun r => r.user_id = u ∧ r.ip = s)
        = some r1 ∧ r1.first_seen = r0.first_seen ∧
          strLe r0.last_seen r1.last_seen = true := by
  unfold upsertIP
  split
  · rw [find?_map_of_key _ _ ?_ h, hf]
    · refine ⟨_, rfl, ?_, ?_⟩ <;>
      · by_cases hc : r0.user_id = uid ∧ r0.ip = ip
        · simp [hc, le_bump_left]
        · simp [hc, strLe_refl]
    · intro r
      by_cases hc : r.user_id = uid ∧ r.ip = ip
      · simp [hc]
      · simp [hc]
  · rw [List.find?_append, hf, Option.or_some]
    exact ⟨r0, rfl, rfl, strLe_refl _⟩

theorem find?_pair_ingestItem (now : Int) (db : DB) (it : TautulliItem)
    (u : Int) (s : String) (r0 : IPRow)
    (hf : (db.history.find? fun r => r.user_id = u ∧ r.ip = s) = some r0) :
    ∃ r1, ((ingestItem now db it).history.find? fun r => r.user_id = u ∧ r.ip = s)
        = some r1 ∧ r1.first_seen = r0.first_seen ∧
          strLe r0.last_seen r1.last_seen = true := by
  cases hip : itemIP it with
  | none =>
    simp only [ingestItem, hip]
    exact ⟨r0, hf, rfl, strLe_refl _⟩
  | some ip =>
    simp only [ingestItem, hip]
    exact find?_pair_upsertIP it.user_id ip (effectiveTs now it) db.nextId u s r0
      db.history hf

theorem find?_pair_ingestItems (now : Int) (arr : List TautulliItem) (db : DB)
    (u : Int) (s : String) (r0 : IPRow)
    (hf : (db.history.find? fun r => r.user_id = u ∧ r.ip = s) = some r0) :
    ∃ r1, ((ingestItems now arr db).history.find? fun r => r.user_id = u ∧ r.ip = s)
        = some r1 ∧ r1.first_seen = r0.first_seen ∧
          strLe r0.last_seen r1.last_seen = true := by
  induction arr generalizing db r0 with
  | nil => exact ⟨r0, hf, rfl, strLe_refl _⟩
  | cons it rest ih =>
    obtain ⟨r1, h1, h2, h3⟩ := find?_pair_ingestItem now db it u s r0 hf
    obtain ⟨r2, g1, g2, g3⟩ := ih (ingestItem now db it) r1 h1
    exact ⟨r2, g1, g2.trans h2, strLe_trans h3 g3⟩

/-- C2: once a (user, address) pair exists, its `first_seen` survives every
later ingest unchanged (its `last_seen` can only move up in the stored TEXT
order); and in the concrete two-call scenario — date 1000 then date 500 for
user 1 at 10.0.0.5 — the final `last_seen` of both the user and the pair is
the encoding of 1000 and the pair's `first_seen` stays that of 1000. -/
theorem c2_first_seen_set_once :
    (∀ now arr db u s f, pairFirstSeen db u s = some f →
      pairFirstSeen (ingestItems now arr db) u s = some f) ∧
    (userLastSeen (ingestItems 3000 [⟨1, "alice", none, none, some "10.0.0.5", some 500⟩]
        (ingestItems 2000 [⟨1, "alice", none, none, some "10.0.0.5", some 1000⟩] emptyDB)) 1
      = some (rfc3339 1000) ∧
     pairLastSeen (ingestItems 3000 [⟨1, "alice", none, none, some "10.0.0.5", some 500⟩]
        (ingestItems 2000 [⟨1, "alice", none, none, some "10.0.0.5", some 1000⟩] emptyDB)) 1
        "10.0.0.5" = some (rfc3339 1000) ∧
     pairFirstSeen (ingestItems 3000 [⟨1, "alice", none, none, some "10.0.0.5", some 500⟩]
        (ingestItems 2000 [⟨1, "alice", none, none, some "10.0.0.5", some 1000⟩] emptyDB)) 1
        "10.0.0.5" = some (rfc3339 1000)) := by
  refine ⟨?_, by decide, by decide, by decide⟩
  intro now arr db u s f hf
  unfold pairFirstSeen at hf ⊢
  cases hfind : db.history.find? fun r => r.user_id = u ∧ r.ip = s with
  | none => rw [hfind] at hf; cases hf
  | some r0 =>
    rw [hfind] at hf
    obtain ⟨r1, h1, h2, _⟩ := find?_pair_ingestItems now arr db u s r0 hfind
    rw [h1]
    simpa [h2] using hf

theorem c2_first_seen_set_once_witness :
    pairFirstSeen (ingestItems 9 [⟨2, "b", none, none, some "1.2.3.4", some 50⟩]
      (ingestItems 8 [⟨2, "b", none, none, some "1.2.3.4", some 99⟩] emptyDB)) 2
      "1.2.3.4" = some (rfc3339 99) :=
  c2_first_seen_set_once.1 9 _ _ 2 "1.2.3.4" (rfc3339 99) (by decide)

/-! ### C8: per-user history listing -/

instance : IsTotal IPRow byLastSeenDesc :=
  ⟨fun a b => strLe_total b.last_seen a.last_seen⟩

instance : IsTrans IPRow byLastSeenDesc :=
  ⟨fun _ _ _ h1 h2 => strLe_trans h2 h1⟩

/-- C8 counterexample: the listing order is not chronological.  Two rows at
epochs 946684800 (year 2000) and 253402300800 (year 10000): `ORDER BY
last_seen DESC` orders the TEXT, where "2000-…" > "10000-…", so the
chronologically older row is listed first. -/
theorem c8_order_not_chronological :
    ((userIPs (ingestItems 0
        [⟨1, "u", none, none, some "b", some 946684800⟩,
         ⟨1, "u", none, none, some "a", some 253402300800⟩] emptyDB) 1).map
      (fun r => (r.ip, r.last_seen)))
      = [("b", rfc3339 946684800), ("a", rfc3339 253402300800)] ∧
    (946684800 : Int) < 253402300800 := by
  refine ⟨by decide, by decide⟩

/-- C8 amended: the history query lists exactly the stored rows of the
requested user, ordered descending in the bytewise TEXT order of the stored
RFC3339 `last_seen` (chronological only while all years have four digits);
a user id with no stored rows yields the empty list (not an error), and when
no registry row exists the rendered label is the placeholder `"User <id>"`. -/
theorem c8_history_query (db : DB) (uid : Int) :
    List.Sorted byLastSeenDesc (userIPs db uid) ∧
    (∀ r, r ∈ userIPs db uid ↔ r ∈ db.history ∧ r.user_id = uid) ∧
    ((∀ r ∈ db.history, r.user_id ≠ uid) → userIPs db uid = []) ∧
    ((∀ u ∈ db.users, u.id ≠ uid) →
      displayName db uid = "User " ++ toString uid) := by
  refine ⟨List.sorted_insertionSort byLastSeenDesc _, ?_, ?_, ?_⟩
  · intro r
    simp [userIPs, List.mem_insertionSort, List.mem_filter]
  · intro h
    unfold userIPs
    rw [List.filter_eq_nil_iff.mpr (fun r hr => by simpa using h r hr)]
    rfl
  · intro h
    have hnone : (db.users.find? fun u => u.id = uid) = none :=
      List.find?_eq_none.mpr (fun u hu => by simpa using h u hu)
    simp [displayName, hnone]

theorem c8_history_query_witness :
    userIPs emptyDB 42 = [] ∧
    displayName emptyDB 42 = "User " ++ toString (42 : Int) :=
  ⟨(c8_history_query emptyDB 42).2.2.1 (fun r hr => by cases hr),
   (c8_history_query emptyDB 42).2.2.2 (fun u hu => by cases hu)⟩

/-! ### C5: the last-IP projection and its tie behavior -/

/-- C5 counterexample: two ingest orders of the same two tied observations
leave identical `plex_users` rows and the same multiset of history-row
contents, yet the `users_last_ip` projection reports a different `last_ip`
for user 1 — the tie between "a" and "b" at timestamp 100 is resolved by row
storage order, not by any stable key on the address string. -/
theorem c5_tie_break_not_deterministic :
    ((ingestItems 0 [⟨1, "u", none, none, some "b", some 100⟩,
        ⟨1, "u", none, none, some "a", some 100⟩] emptyDB).users
      = (ingestItems 0 [⟨1, "u", none, none, some "a", some 100⟩,
          ⟨1, "u", none, none, some "b", some 100⟩] emptyDB).users) ∧
    List.Perm
      ((ingestItems 0 [⟨1, "u", none, none, some "b", some 100⟩,
          ⟨1, "u", none, none, some "a", some 100⟩] emptyDB).history.map
        (fun r => (r.user_id, r.ip, r.first_seen, r.last_seen)))
      ((ingestItems 0 [⟨1, "u", none, none, some "a", some 100⟩,
          ⟨1, "u", none, none, some "b", some 100⟩] emptyDB).history.map
        (fun r => (r.user_id, r.ip, r.first_seen, r.last_seen))) ∧
    ((summaryRows (ingestItems 0 [⟨1, "u", none, none, some "b", some 100⟩,
        ⟨1, "u", none, none, some "a", some 100⟩] emptyDB) "").map
      (fun r => r.last_ip) = [some "b"]) ∧
    ((summaryRows (ingestItems 0 [⟨1, "u", none, none, some "a", some 100⟩,
        ⟨1, "u", none, none, some "b", some 100⟩] emptyDB) "").map
      (fun r => r.last_ip) = [some "a"]) := by
  refine ⟨by decide, by decide, by decide, by decide⟩

/-- The accumulator step of the `LIMIT 1` scan: keep the row seen so far
unless the next row has a strictly TEXT-larger `last_seen`. -/
def pickStep (acc : Option IPRow) (r : IPRow) : Option IPRow :=
  match acc with
  | none => some r
  | some b => if strGt r.last_seen b.last_seen then some r else acc

theorem lastIpRow_eq_pick (h : List IPRow) (u : Int) :
    lastIpRow h u = (h.filter fun r => r.user_id = u).foldl pickStep none := rfl

theorem pickStep_none (r : IPRow) : pickStep none r = some r := rfl

theorem pickStep_some_eq (b r : IPRow) :
    pickStep (some b) r
      = if strGt r.last_seen b.last_seen then some r else some b := rfl

theorem pickStep_spec (acc : Option IPRow) (x : IPRow) :
    ∃ b, pickStep acc x = some b ∧ strLe x.last_seen b.last_seen = true ∧
      (∀ a, acc = some a → strLe a.last_seen b.last_seen = true) ∧
      (b = x ∨ acc = some b) := by
  cases acc with
  | none =>
    refine ⟨x, rfl, strLe_refl _, ?_, Or.inl rfl⟩
    intro a ha
    cases ha
  | some a =>
    cases hlt : strGt x.last_seen a.last_seen
    · refine ⟨a, ?_, strLe_of_not_strGt hlt, ?_, Or.inr rfl⟩
      · rw [pickStep_some_eq, if_neg (by simp [hlt])]
      · intro a2 ha2
        cases ha2
        exact strLe_refl _
    · refine ⟨x, ?_, strLe_refl _, ?_, Or.inl rfl⟩
      · rw [pickStep_some_eq, if_pos hlt]
      · intro a2 ha2
        cases ha2
        exact strLe_of_strGt hlt

theorem pickFold_some :
    ∀ (l : List IPRow) (acc : Option IPRow) (r : IPRow),
      l.foldl pickStep acc = some r →
      (acc = some r ∨ r ∈ l) ∧ (∀ q ∈ l, strLe q.last_seen r.last_seen = true) ∧
        (∀ b, acc = some b → strLe b.last_seen r.last_seen = true) := by
  intro l
  induction l with
  | nil =>
    intro acc r h
    refine ⟨Or.inl h, ?_, ?_⟩
    · intro q hq
      exact absurd hq (List.not_mem_nil q)
    · intro b hb
      rw [hb] at h
      cases h
      exact strLe_refl _
  | cons x rest ih =>
    intro acc r h
    rw [List.foldl_cons] at h
    obtain ⟨b, hb, hxb, haccb, hbor⟩ := pickStep_spec acc x
    rw [hb] at h
    obtain ⟨hm, hrest, hacc2⟩ := ih (some b) r h
    have hbr : strLe b.last_seen r.last_seen = true := hacc2 b rfl
    refine ⟨?_, ?_, ?_⟩
    · rcases hm with hm | hm
      · cases hm
        rcases hbor with rfl | hbor
        · exact Or.inr (List.mem_cons_self _ _)
        · exact Or.inl hbor
      · exact Or.inr (List.mem_cons_of_mem _ hm)
    · intro q hq
      rcases List.mem_cons.mp hq with rfl | hq2
      · exact strLe_trans hxb hbr
      · exact hrest q hq2
    · intro a ha
      exact strLe_trans (haccb a ha) hbr

theorem pickFold_ne_none :
    ∀ (l : List IPRow) (acc : Option IPRow), acc ≠ none →
      l.foldl pickStep acc ≠ none := by
  intro l
  induction l with
  | nil => intro acc h; exact h
  | cons x rest ih =>
    intro acc h
    rw [List.foldl_cons]
    obtain ⟨b, hb, _⟩ := pickStep_spec acc x
    rw [hb]
    exact ih (some b) (Option.some_ne_none b)

/-- C5 amended: the projection selects an observation maximal in the
bytewise TEXT order of the stored RFC3339 `last_seen` strings — the order
the view's `ORDER BY` actually uses, which agrees with chronological order
only while all years have four digits — and selects one whenever the user
has history rows; but a tie between two addresses is resolved by row
storage order — the view has no secondary sort key on the address string —
so the selected `last_ip` is not a function of the set of
(address, watermark) pairs alone. -/
theorem c5_projection_selects_max (h : List IPRow) (u : Int) :
    (∀ r, lastIpRow h u = some r → r ∈ h ∧ r.user_id = u ∧
      ∀ q ∈ h, q.user_id = u → strLe q.last_seen r.last_seen = true) ∧
    ((∃ r ∈ h, r.user_id = u) → ∃ r, lastIpRow h u = some r) := by
  constructor
  · intro r hr
    rw [lastIpRow_eq_pick] at hr
    obtain ⟨hm, hb, _⟩ := pickFold_some _ none r hr
    rcases hm with hacc | hmem
    · cases hacc
    · have hmf := List.mem_filter.mp hmem
      refine ⟨hmf.1, by simpa using hmf.2, ?_⟩
      intro q hq hqu
      exact hb q (List.mem_filter.mpr ⟨hq, by simpa⟩)
  · rintro ⟨r, hr, hru⟩
    have hmem : r ∈ h.filter (fun r => r.user_id = u) :=
      List.mem_filter.mpr ⟨hr, by simpa⟩
    rw [lastIpRow_eq_pick]
    cases hl : h.filter fun r => r.user_id = u with
    | nil => exact absurd (hl ▸ hmem) (List.not_mem_nil r)
    | cons x rest =>
      have hne := pickFold_ne_none rest (some x) (Option.some_ne_none x)
      cases hres : rest.foldl pickStep (some x) with
      | none => exact absurd hres hne
      | some r2 =>
        refine ⟨r2, ?_⟩
        rw [List.foldl_cons, pickStep_none]
        exact hres

theorem c5_projection_selects_max_witness :
    ∃ r, lastIpRow [⟨0, 1, "10.0.0.9", "t", "t"⟩] 1 = some r :=
  (c5_projection_selects_max [⟨0, 1, "10.0.0.9", "t", "t"⟩] 1).2
    ⟨⟨0, 1, "10.0.0.9", "t", "t"⟩, by decide, rfl⟩

/-! ### C7: filtered summary listing -/

instance : IsTotal SummaryRow byUsername :=
  ⟨fun a b => charListLe_total a.username.data b.username.data⟩

instance : IsTrans SummaryRow byUsername :=
  ⟨fun _ _ _ h1 h2 => charListLe_trans _ _ _ h1 h2⟩

/-- C7 counterexample: the filter is not literal substring containment.
SQLite's `LIKE` keeps `%` and `_` inside the filter active as wildcards, so
the filter "a_c" keeps the row of username "abc" although "abc" does not
contain "a_c" as a substring (case-insensitively or otherwise). -/
theorem c7_filter_uses_like_wildcards :
    ((summaryRows (ingestItems 0 [⟨1, "abc", none, none, none, some 100⟩] emptyDB)
        "a_c").map (fun r => r.username) = ["abc"]) ∧
    containsCI "abc" "a_c" = false ∧
    likeMatch "abc" "a_c" = true := by
  refine ⟨by decide, by decide, by decide⟩

/-- C7 amended: the summary listing is ordered by username ascending (BINARY
collation); with an empty (Unicode-whitespace-trimmed) filter it contains
exactly one view row per registered user; with a non-empty filter it keeps
exactly the rows whose username, last_ip or friendly_name matches the
SQLite LIKE pattern `'%'||q||'%'` — ASCII-case-insensitive, with `%` and `_`
inside the filter acting as wildcards, weaker than literal containment; a
filter that matches no row yields the empty list, not an error; and
concretely the filter "ali" matches username "alice". -/
theorem c7_summary_query :
    (∀ db q, List.Sorted byUsername (summaryRows db q)) ∧
    (∀ db q r, trimStr q = "" →
      (r ∈ summaryRows db q ↔ ∃ u ∈ db.users, viewRow db u = r)) ∧
    (∀ db q r, trimStr q ≠ "" →
      (r ∈ summaryRows db q ↔
        (∃ u ∈ db.users, viewRow db u = r) ∧ rowMatches (trimStr q) r = true)) ∧
    (∀ db q, trimStr q ≠ "" →
      (∀ u ∈ db.users, rowMatches (trimStr q) (viewRow db u) = false) →
      summaryRows db q = []) ∧
    likeMatch "alice" "ali" = true ∧
    summaryRows (ingestItems 0
        [⟨1, "alice", none, none, some "10.0.0.5", some 1000⟩] emptyDB) "ali"
      = [⟨1, "alice", none, some "10.0.0.5", some (rfc3339 1000)⟩] ∧
    summaryRows (ingestItems 0
        [⟨1, "alice", none, none, some "10.0.0.5", some 1000⟩] emptyDB) "zzz"
      = [] := by
  refine ⟨?_, ?_, ?_, ?_, by decide, by decide, by decide⟩
  · intro db q
    exact List.sorted_insertionSort byUsername _
  · intro db q r hq
    simp [summaryRows, hq, List.mem_insertionSort]
  · intro db q r hq
    rw [summaryRows, if_neg hq, List.mem_insertionSort, List.mem_filter,
      List.mem_map]
  · intro db q hq hall
    rw [summaryRows, if_neg hq,
      List.filter_eq_nil_iff.mpr (fun a ha => ?_)]
    · rfl
    · obtain ⟨u, hu, rfl⟩ := List.mem_map.mp ha
      simp [hall u hu]

theorem c7_summary_query_witness :
    summaryRows (ingestItems 0
      [⟨1, "alice", none, none, some "10.0.0.5", some 1000⟩] emptyDB) "qq" = [] :=
  c7_summary_query.2.2.2.1 _ "qq" (by decide) (by decide)

/-! ### C1: last_seen as a maximum of the supplied timestamps -/

/-- Merge an optional running TEXT maximum with the next value. -/
def optMax (o : Option String) (d : String) : String :=
  match o with
  | none => d
  | some a => bump a d

/-- TEXT maximum of a list of timestamps, `none` for the empty list. -/
def listMax (l : List String) : Option String :=
  l.foldl (fun o d => some (optMax o d)) none

theorem find?_map_self {α : Type} (p : α → Bool) (g : α → α)
    (hg : ∀ r, p (g r) = p r) (l : List α) :
    (l.map g).find? p = (l.find? p).map g := by
  rw [List.find?_map, show (p ∘ g) = p from funext hg]

theorem userLastSeen_upsertUser (it : TautulliItem) (ts : String) (us : List UserRow)
    (u : Int) :
    ((upsertUser it ts us).find? fun r => r.id = u).map (fun r => r.last_seen)
      = if it.user_id = u
        then some (optMax ((us.find? fun r => r.id = u).map fun r => r.last_seen) ts)
        else (us.find? fun r => r.id = u).map fun r => r.last_seen := by
  unfold upsertUser
  split
  · rename_i hany
    rw [find?_map_self _ _ (fun r => ?_) us]
    · by_cases hu : it.user_id = u
      · rw [if_pos hu]
        subst hu
        obtain ⟨r0, hr0mem, hr0p⟩ := List.any_eq_true.mp hany
        cases hfind : us.find? fun r => r.id = it.user_id with
        | none => exact absurd hr0p (List.find?_eq_none.mp hfind r0 hr0mem)
        | some r1 =>
          have hp1 : r1.id = it.user_id := by simpa using List.find?_some hfind
          simp [hp1, optMax]
      · rw [if_neg hu]
        cases hfind : us.find? fun r => r.id = u with
        | none => simp
        | some r1 =>
          have hp1 : r1.id = u := by simpa using List.find?_some hfind
          have hne : ¬ r1.id = it.user_id := by
            rw [hp1]; exact fun hh => hu hh.symm
          simp [hne]
    · by_cases hc : r.id = it.user_id <;> simp [hc]
  · rename_i hany
    rw [List.find?_append]
    by_cases hu : it.user_id = u
    · have hnone : (us.find? fun r => r.id = u) = none := by
        apply List.find?_eq_none.mpr
        intro r hr hp
        apply hany
        apply List.any_eq_true.mpr
        exact ⟨r, hr, by simpa [hu] using hp⟩
      rw [hnone]
      simp [hu, optMax]
    · have hfr : (([⟨it.user_id, it.user, it.friendly_name, it.user_thumb, ts⟩] :
          List UserRow).find? fun r => r.id = u) = none := by
        simp [List.find?, hu]
      rw [hfr, if_neg hu]
      cases us.find? fun r => r.id = u <;> rfl

theorem userLastSeen_ingestItem (now : Int) (db : DB) (it : TautulliItem) (u : Int) :
    userLastSeen (ingestItem now db it) u
      = if it.user_id = u
        then some (optMax (userLastSeen db u) (effectiveTs now it))
        else userLastSeen db u := by
  unfold userLastSeen
  rw [ingestItem_users]
  exact userLastSeen_upsertUser it (effectiveTs now it) db.users u

theorem userLastSeen_ingestItems (now : Int) (arr : List TautulliItem) (db : DB)
    (u : Int) :
    userLastSeen (ingestItems now arr db) u
      = arr.foldl (fun o it =>
          if it.user_id = u then some (optMax o (effectiveTs now it)) else o)
        (userLastSeen db u) := by
  induction arr generalizing db with
  | nil => rfl
  | cons it rest ih =>
    rw [ingestItems_cons, ih, userLastSeen_ingestItem]
    simp only [List.foldl_cons]

theorem foldl_step_all (u : Int) (now : Int) :
    ∀ (l : List TautulliItem) (o : Option String), (∀ it ∈ l, it.user_id = u) →
      l.foldl (fun o it =>
        if it.user_id = u then some (optMax o (effectiveTs now it)) else o) o
      = l.foldl (fun o it => some (optMax o (effectiveTs now it))) o := by
  intro l
  induction l with
  | nil => intro o _; rfl
  | cons x rest ih =>
    intro o h
    simp only [List.foldl_cons, if_pos (h x (List.mem_cons_self x rest))]
    exact ih _ (fun it hit => h it (List.mem_cons_of_mem x hit))

theorem listMax_perm (l1 l2 : List String) (h : List.Perm l1 l2) :
    listMax l1 = listMax l2 := by
  haveI : RightCommutative (fun (o : Option String) (d : String) => some (optMax o d)) := by
    constructor
    intro o d1 d2
    cases o with
    | none =>
      simp only [optMax, Option.some.injEq]
      exact bump_comm d1 d2
    | some a =>
      simp only [optMax, Option.some.injEq]
      exact bump_right_comm a d1 d2
  exact h.foldl_eq none

theorem applyBatches_eq_flatten (now : Int) (bs : List (List TautulliItem)) :
    ∀ db : DB, applyBatches now bs db = ingestItems now bs.flatten db := by
  induction bs with
  | nil => intro db; rfl
  | cons b rest ih =>
    intro db
    calc applyBatches now (b :: rest) db
        = applyBatches now rest (ingestItems now b db) := rfl
      _ = ingestItems now rest.flatten (ingestItems now b db) := ih _
      _ = ingestItems now (b ++ rest.flatten) db := by
          unfold ingestItems
          rw [List.foldl_append]
      _ = ingestItems now (List.flatten (b :: rest)) db := by rw [List.flatten_cons]

/-- C1 counterexample: the chronological monotone-merge law fails.  Two
calls for user 1, epochs 253402300800 (year 10000) then 946684800 (year
2000): the CASE compares the stored RFC3339 TEXT, and "10000-…" < "2000-…"
in that order, so the stored `last_seen` ends as the encoding of 946684800
— not of the chronologically maximal supplied timestamp 253402300800. -/
theorem c1_chronological_max_violated :
    userLastSeen (ingestItems 0
        [⟨1, "a", none, none, none, some 253402300800⟩,
         ⟨1, "a", none, none, none, some 946684800⟩] emptyDB) 1
      = some (rfc3339 946684800) ∧
    strLe (rfc3339 253402300800) (rfc3339 946684800) = true ∧
    (946684800 : Int) < 253402300800 := by
  refine ⟨by decide, by decide, by decide⟩

/-- C1 amended: when all items across a sequence of ingest calls address
user `u` and carry explicit positive `date`s, the stored `last_seen` of `u`
after the calls is the maximum *in the bytewise TEXT order of the stored
RFC3339 encodings* of the supplied effective timestamps — for any wall
clock and any permutation of the batch sequence.  That TEXT maximum is the
chronological maximum exactly while all encoded years have four digits. -/
theorem c1_last_seen_is_supplied_max (u now : Int)
    (batches : List (List TautulliItem))
    (hu : ∀ b ∈ batches, ∀ it ∈ b, it.user_id = u)
    (hd : ∀ b ∈ batches, ∀ it ∈ b, 0 < it.date.getD 0) :
    ∀ (now2 : Int) (bs2 : List (List TautulliItem)), List.Perm batches bs2 →
      userLastSeen (applyBatches now2 bs2 emptyDB) u
        = listMax (batches.flatten.map (effectiveTs now)) := by
  intro now2 bs2 hperm
  have hflat : List.Perm batches.flatten bs2.flatten := hperm.flatten
  have hu2 : ∀ it ∈ bs2.flatten, it.user_id = u := by
    intro it hit
    obtain ⟨b, hb, hitb⟩ := List.mem_flatten.mp (hflat.mem_iff.mpr hit)
    exact hu b hb it hitb
  have heff : ∀ it ∈ bs2.flatten, effectiveTs now2 it = effectiveTs now it := by
    intro it hit
    obtain ⟨b, hb, hitb⟩ := List.mem_flatten.mp (hflat.mem_iff.mpr hit)
    have hpos := hd b hb it hitb
    cases hdate : it.date with
    | none => rw [hdate] at hpos; simp at hpos
    | some d =>
      rw [hdate] at hpos
      simp only [Option.getD_some] at hpos
      simp [effectiveTs, effEpoch, hdate, hpos]
  rw [applyBatches_eq_flatten, userLastSeen_ingestItems,
    show userLastSeen emptyDB u = none from rfl,
    foldl_step_all u now2 bs2.flatten none hu2]
  have h1 : List.foldl (fun o it => some (optMax o (effectiveTs now2 it))) none
        bs2.flatten
      = listMax (bs2.flatten.map (effectiveTs now2)) :=
    (List.foldl_map (effectiveTs now2) (fun o d => some (optMax o d))
      bs2.flatten none).symm
  rw [h1, List.map_congr_left heff]
  exact listMax_perm _ _ ((hflat.map (effectiveTs now)).symm)

theorem c1_last_seen_is_supplied_max_witness :
    userLastSeen (applyBatches 5
      [[⟨1, "a", none, none, some "x", some 200⟩],
       [⟨1, "b", none, none, none, some 100⟩]] emptyDB) 1
      = listMax ([[⟨1, "b", none, none, none, some 100⟩],
          [⟨1, "a", none, none, some "x", some 200⟩]].flatten.map (effectiveTs 0)) :=
  c1_last_seen_is_supplied_max 1 0
    [[⟨1, "b", none, none, none, some 100⟩],
     [⟨1, "a", none, none, some "x", some 200⟩]]
    (by decide) (by decide) 5
    [[⟨1, "a", none, none, some "x", some 200⟩],
     [⟨1, "b", none, none, none, some 100⟩]]
    (by decide)

/-! ### C10: the summary projection is total over registered users -/

theorem isSome_foldl_lastSeen (u : Int) (now : Int) :
    ∀ (l : List TautulliItem) (o : Option String),
      (o.isSome ∨ ∃ it ∈ l, it.user_id = u) →
      (l.foldl (fun o it =>
        if it.user_id = u then some (optMax o (effectiveTs now it)) else o) o).isSome := by
  intro l
  induction l with
  | nil =>
    intro o h
    rcases h with h | ⟨it, hit, _⟩
    · exact h
    · cases hit
  | cons x rest ih =>
    intro o h
    rw [List.foldl_cons]
    apply ih
    by_cases hc : x.user_id = u
    · left
      rw [if_pos hc]
      rfl
    · rw [if_neg hc]
      rcases h with h | ⟨it, hit, hid⟩
      · exact Or.inl h
      · rcases List.mem_cons.mp hit with rfl | hit2
        · exact absurd hid hc
        · exact Or.inr ⟨it, hit2, hid⟩

theorem ingestItems_user_exists (now : Int) (arr : List TautulliItem) (db : DB)
    (u : Int)
    (h : (∃ r ∈ db.users, r.id = u) ∨ ∃ it ∈ arr, it.user_id = u) :
    ∃ r ∈ (ingestItems now arr db).users, r.id = u := by
  have h2 : (userLastSeen (ingestItems now arr db) u).isSome := by
    rw [userLastSeen_ingestItems]
    apply isSome_foldl_lastSeen
    rcases h with h | h
    · left
      unfold userLastSeen
      obtain ⟨r, hr, hid⟩ := h
      have hs : (db.users.find? fun r => r.id = u).isSome = true :=
        List.find?_isSome.mpr ⟨r, hr, by simpa using hid⟩
      cases hf2 : db.users.find? fun r => r.id = u with
      | none => rw [hf2] at hs; cases hs
      | some r2 => rfl
    · exact Or.inr h
  unfold userLastSeen at h2
  cases hfind : (ingestItems now arr db).users.find? fun r => r.id = u with
  | none => rw [hfind] at h2; cases h2
  | some r =>
    exact ⟨r, List.mem_of_find?_eq_some hfind, by simpa using List.find?_some hfind⟩

theorem ingestItem_no_history_for (now : Int) (db : DB) (it : TautulliItem) (u : Int)
    (hitem : it.user_id = u → itemIP it = none)
    (h : ∀ r ∈ db.history, r.user_id ≠ u) :
    ∀ r ∈ (ingestItem now db it).history, r.user_id ≠ u := by
  intro r hr
  cases hip : itemIP it with
  | none =>
    simp only [ingestItem, hip] at hr
    exact h r hr
  | some ip =>
    simp only [ingestItem, hip] at hr
    have hne : it.user_id ≠ u := fun hh => by simp [hitem hh] at hip
    unfold upsertIP at hr
    split at hr
    · obtain ⟨r0, hr0, rfl⟩ := List.mem_map.mp hr
      by_cases hc : r0.user_id = it.user_id ∧ r0.ip = ip
      · simpa [hc] using h r0 hr0
      · simpa [hc] using h r0 hr0
    · rcases List.mem_append.mp hr with h1 | h1
      · exact h r h1
      · rw [List.mem_singleton] at h1
        subst h1
        exact hne

theorem ingestItems_no_history_for (now : Int) (u : Int) :
    ∀ (arr : List TautulliItem) (db : DB),
      (∀ it ∈ arr, it.user_id = u → itemIP it = none) →
      (∀ r ∈ db.history, r.user_id ≠ u) →
      ∀ r ∈ (ingestItems now arr db).history, r.user_id ≠ u := by
  intro arr
  induction arr with
  | nil => intro db _ h; exact h
  | cons x rest ih =>
    intro db hitem h
    rw [ingestItems_cons]
    exact ih _ (fun it hit => hitem it (List.mem_cons_of_mem x hit))
      (ingestItem_no_history_for now db x u (hitem x (List.mem_cons_self x rest)) h)

theorem lastIpRow_none_of (h : List IPRow) (u : Int)
    (hn : ∀ r ∈ h, r.user_id ≠ u) : lastIpRow h u = none := by
  rw [lastIpRow_eq_pick,
    List.filter_eq_nil_iff.mpr (fun r hr => by simpa using hn r hr)]
  rfl

/-- C10: a user whose observations all lacked an address still appears in the
(unfiltered) summary listing, with NULL `last_ip` and NULL `updated_at`: the
`users_last_ip` view ranges over all of `plex_users`, not only over users
with history rows. -/
theorem c10_summary_total_over_users (now : Int) (u : Int) (arr : List TautulliItem)
    (h1 : ∃ it ∈ arr, it.user_id = u)
    (h2 : ∀ it ∈ arr, it.user_id = u → itemIP it = none) :
    ∃ r ∈ summaryRows (ingestItems now arr emptyDB) "",
      r.user_id = u ∧ r.last_ip = none ∧ r.updated_at = none := by
  obtain ⟨row, hrow, hrid⟩ :=
    ingestItems_user_exists now arr emptyDB u (Or.inr h1)
  have hnoh : ∀ r ∈ (ingestItems now arr emptyDB).history, r.user_id ≠ u :=
    ingestItems_no_history_for now u arr emptyDB h2 (fun r hr => by cases hr)
  have hlip : lastIpRow (ingestItems now arr emptyDB).history u = none :=
    lastIpRow_none_of _ _ hnoh
  refine ⟨viewRow (ingestItems now arr emptyDB) row, ?_, ?_, ?_, ?_⟩
  · have ht : trimStr "" = "" := rfl
    simp only [summaryRows, ht, if_pos rfl, List.mem_insertionSort]
    exact List.mem_map_of_mem _ hrow
  · simpa [viewRow] using hrid
  · simp [viewRow, hrid, hlip]
  · simp [viewRow, hrid, hlip]

theorem c10_summary_total_over_users_witness :
    ∃ r ∈ summaryRows (ingestItems 4 [⟨7, "bob", none, none, none, some 50⟩] emptyDB) "",
      r.user_id = 7 ∧ r.last_ip = none ∧ r.updated_at = none :=
  c10_summary_total_over_users 4 7 [⟨7, "bob", none, none, none, some 50⟩]
    ⟨⟨7, "bob", none, none, none, some 50⟩, by decide, rfl⟩ (by decide)

/-! ### C3: idempotence of re-ingesting an identical batch

The proof characterizes the state a batch produces: each pre-existing row is
rewritten by the per-row replay `applyToUser`/`applyToPair`, and the batch
appends one fresh row per new key, in first-occurrence order
(`newUsers`/`newPairs`).  Replaying the same batch then fixes every row. -/

/-- `bump` with the selected items of a batch folded in sequence. -/
def selTs (sel : TautulliItem → Bool) (now : Int) : List TautulliItem → String → String
  | [], t => t
  | it :: rest, t =>
    selTs sel now rest (if sel it then bump t (effectiveTs now it) else t)

theorem selTs_ge (sel : TautulliItem → Bool) (now : Int) :
    ∀ (A : List TautulliItem) (t : String), strLe t (selTs sel now A t) = true := by
  intro A
  induction A with
  | nil => intro t; exact strLe_refl t
  | cons it rest ih =>
    intro t
    cases hs : sel it with
    | false => simp only [selTs, hs, if_false]; exact ih t
    | true =>
      simp only [selTs, hs, if_true]
      exact strLe_trans (le_bump_left _ _) (ih _)

theorem selTs_absorb (sel : TautulliItem → Bool) (now : Int) :
    ∀ (A : List TautulliItem) (t : String),
      selTs sel now A (selTs sel now A t) = selTs sel now A t := by
  intro A
  induction A with
  | nil => intro t; rfl
  | cons it rest ih =>
    intro t
    cases hs : sel it with
    | false => simp only [selTs, hs, if_false]; exact ih t
    | true =>
      simp only [selTs, hs, if_true]
      rw [bump_absorb _ _ (strLe_trans (le_bump_right _ _) (selTs_ge sel now rest _))]
      exact ih _

theorem selTs_append (sel : TautulliItem → Bool) (now : Int) :
    ∀ (l1 l2 : List TautulliItem) (t : String),
      selTs sel now (l1 ++ l2) t = selTs sel now l2 (selTs sel now l1 t) := by
  intro l1
  induction l1 with
  | nil => intro l2 t; rfl
  | cons it rest ih =>
    intro l2 t
    simp only [List.cons_append, selTs]
    exact ih l2 _

theorem selTs_no_touch (sel : TautulliItem → Bool) (now : Int) :
    ∀ (A : List TautulliItem) (t : String), (∀ it ∈ A, sel it = false) →
      selTs sel now A t = t := by
  intro A
  induction A with
  | nil => intro t _; rfl
  | cons it rest ih =>
    intro t h
    simp only [selTs, h it (List.mem_cons_self it rest), if_false]
    exact ih t (fun x hx => h x (List.mem_cons_of_mem it hx))

/-- The per-row effect of one item's user upsert (the DO UPDATE arm). -/
def userUpd (now : Int) (it : TautulliItem) (r : UserRow) : UserRow :=
  if r.id = it.user_id then
    { r with
      username := it.user
      friendly_name := it.friendly_name
      user_thumb := it.user_thumb
      last_seen := bump r.last_seen (effectiveTs now it) }
  else r

/-- The row one item's user upsert inserts when the id is absent. -/
def freshUser (now : Int) (it : TautulliItem) : UserRow :=
  ⟨it.user_id, it.user, it.friendly_name, it.user_thumb, effectiveTs now it⟩

theorem upsertUser_branches (now : Int) (it : TautulliItem) (us : List UserRow) :
    upsertUser it (effectiveTs now it) us
      = if us.any fun u => u.id = it.user_id then us.map (userUpd now it)
        else us ++ [freshUser now it] := rfl

/-- Replay of a whole batch against one user row. -/
def applyToUser (now : Int) (A : List TautulliItem) (r : UserRow) : UserRow :=
  A.foldl (fun r it => userUpd now it r) r

theorem applyToUser_cons (now : Int) (it : TautulliItem) (rest : List TautulliItem)
    (r : UserRow) :
    applyToUser now (it :: rest) r = applyToUser now rest (userUpd now it r) := rfl

theorem userUpd_id (now : Int) (it : TautulliItem) (r : UserRow) :
    (userUpd now it r).id = r.id := by
  unfold userUpd
  split <;> rfl

theorem applyToUser_id (now : Int) :
    ∀ (A : List TautulliItem) (r : UserRow), (applyToUser now A r).id = r.id := by
  intro A
  induction A with
  | nil => intro r; rfl
  | cons it rest ih =>
    intro r
    rw [applyToUser_cons, ih, userUpd_id]

/-- The rows a batch appends to `plex_users`: one per id not yet seen, built
from its first occurrence and replayed against the remaining items. -/
def newUsers (now : Int) (seen : List Int) : List TautulliItem → List UserRow
  | [] => []
  | it :: rest =>
    if it.user_id ∈ seen then newUsers now seen rest
    else applyToUser now rest (freshUser now it)
      :: newUsers now (it.user_id :: seen) rest

/-- The users-table component of the whole transaction loop. -/
def usersFold (now : Int) (A : List TautulliItem) (us : List UserRow) : List UserRow :=
  A.foldl (fun us it => upsertUser it (effectiveTs now it) us) us

theorem usersFold_cons (now : Int) (it : TautulliItem) (rest : List TautulliItem)
    (us : List UserRow) :
    usersFold now (it :: rest) us
      = usersFold now rest (upsertUser it (effectiveTs now it) us) := rfl

theorem newUsers_congr (now : Int) :
    ∀ (A : List TautulliItem) (s t : List Int), (∀ z, z ∈ s ↔ z ∈ t) →
      newUsers now s A = newUsers now t A := by
  intro A
  induction A with
  | nil => intro s t _; rfl
  | cons it rest ih =>
    intro s t hst
    unfold newUsers
    by_cases hc : it.user_id ∈ s
    · rw [if_pos hc, if_pos ((hst _).mp hc)]
      exact ih s t hst
    · rw [if_neg hc, if_neg (fun hh => hc ((hst _).mpr hh))]
      rw [ih (it.user_id :: s) (it.user_id :: t) (fun z => by simp [hst z])]

theorem usersFold_shape (now : Int) :
    ∀ (A : List TautulliItem) (us : List UserRow),
      usersFold now A us
        = us.map (applyToUser now A) ++ newUsers now (us.map fun r => r.id) A := by
  intro A
  induction A with
  | nil =>
    intro us
    show us = us.map (applyToUser now []) ++ newUsers now (us.map fun r => r.id) []
    rw [show applyToUser now [] = id from funext fun r => rfl]
    simp [newUsers]
  | cons it rest ih =>
    intro us
    rw [usersFold_cons, upsertUser_branches, newUsers]
    split
    · rename_i hany
      rw [ih, List.map_map, List.map_map]
      have h1 : applyToUser now rest ∘ userUpd now it = applyToUser now (it :: rest) :=
        funext fun r => rfl
      have h2 : ((fun r => r.id) ∘ userUpd now it) = (fun (r : UserRow) => r.id) :=
        funext fun r => userUpd_id now it r
      rw [h1, h2]
      have hmem : it.user_id ∈ us.map fun r => r.id := by
        obtain ⟨u0, hu0, hp⟩ := List.any_eq_true.mp hany
        exact List.mem_map.mpr ⟨u0, hu0, by simpa using hp⟩
      rw [if_pos hmem]
    · rename_i hany
      have hnot : ∀ u0 ∈ us, ¬ u0.id = it.user_id := by
        intro u0 hu0 hh
        exact hany (List.any_eq_true.mpr ⟨u0, hu0, by simpa using hh⟩)
      have hmem : ¬ it.user_id ∈ us.map fun r => r.id := by
        intro hh
        obtain ⟨u0, hu0, hid⟩ := List.mem_map.mp hh
        exact hnot u0 hu0 hid
      rw [ih, List.map_append, if_neg hmem]
      have h1 : us.map (applyToUser now rest) = us.map (applyToUser now (it :: rest)) := by
        apply List.map_congr_left
        intro r hr
        rw [applyToUser_cons,
          show userUpd now it r = r from by unfold userUpd; rw [if_neg (hnot r hr)]]
      rw [h1]
      have h3 : newUsers now ((us ++ [freshUser now it]).map fun r => r.id) rest
          = newUsers now (it.user_id :: (us.map fun r => r.id)) rest := by
        apply newUsers_congr
        intro z
        simp [freshUser, or_comm]
      rw [h3]
      simp [applyToUser, List.append_assoc]

/-- The last item of a batch that touches user `u` (its identity fields win). -/
def lastTouch (u : Int) : List TautulliItem → Option TautulliItem
  | [] => none
  | it :: rest =>
    match lastTouch u rest with
    | some x => some x
    | none => if it.user_id = u then some it else none

/-- Does an item address user `u`? -/
def userSel (u : Int) (it : TautulliItem) : Bool := decide (it.user_id = u)

theorem applyToUser_char (now : Int) :
    ∀ (A : List TautulliItem) (r : UserRow),
      applyToUser now A r =
        ⟨r.id,
         (match lastTouch r.id A with
          | some x => x.user
          | none => r.username),
         (match lastTouch r.id A with
          | some x => x.friendly_name
          | none => r.friendly_name),
         (match lastTouch r.id A with
          | some x => x.user_thumb
          | none => r.user_thumb),
         selTs (userSel r.id) now A r.last_seen⟩ := by
  intro A
  induction A with
  | nil => intro r; rfl
  | cons it rest ih =>
    intro r
    rw [applyToUser_cons]
    by_cases hc : r.id = it.user_id
    · have hupd : userUpd now it r =
          ⟨r.id, it.user, it.friendly_name, it.user_thumb,
           bump r.last_seen (effectiveTs now it)⟩ := by
        unfold userUpd
        rw [if_pos hc]
      rw [hupd, ih]
      have hsel : userSel r.id it = true := by simp [userSel, hc.symm]
      have heq : it.user_id = r.id := hc.symm
      simp only [selTs, hsel, if_true]
      cases hx : lastTouch r.id rest <;> simp [lastTouch, hx, heq]
    · have hupd : userUpd now it r = r := by
        unfold userUpd
        rw [if_neg hc]
      rw [hupd, ih]
      have hne : ¬ it.user_id = r.id := fun hh => hc hh.symm
      have hsel : userSel r.id it = false := by simp [userSel, hne]
      simp only [selTs, hsel, if_false]
      cases hx : lastTouch r.id rest <;> simp [lastTouch, hx, hne]

theorem applyToUser_idem (now : Int) (A : List TautulliItem) (r : UserRow) :
    applyToUser now A (applyToUser now A r) = applyToUser now A r := by
  rw [applyToUser_char now A r, applyToUser_char now A]
  cases hx : lastTouch r.id A <;> simp [hx, selTs_absorb]

theorem lastTouch_append (u : Int) :
    ∀ (l1 l2 : List TautulliItem),
      lastTouch u (l1 ++ l2)
        = match lastTouch u l2 with
          | some x => some x
          | none => lastTouch u l1 := by
  intro l1
  induction l1 with
  | nil =>
    intro l2
    rw [List.nil_append]
    cases hx : lastTouch u l2 <;> simp [hx, lastTouch]
  | cons it rest ih =>
    intro l2
    show (match lastTouch u (rest ++ l2) with
      | some x => some x
      | none => if it.user_id = u then some it else none) = _
    rw [ih l2]
    cases hx : lastTouch u l2 <;> cases hy : lastTouch u rest <;> simp [lastTouch, hy]

theorem lastTouch_no_touch (u : Int) :
    ∀ (A : List TautulliItem), (∀ it ∈ A, ¬ it.user_id = u) → lastTouch u A = none := by
  intro A
  induction A with
  | nil => intro _; rfl
  | cons it rest ih =>
    intro h
    show (match lastTouch u rest with
      | some x => some x
      | none => if it.user_id = u then some it else none) = none
    rw [ih (fun x hx => h x (List.mem_cons_of_mem it hx)),
      if_neg (h it (List.mem_cons_self it rest))]

theorem applyToUser_reapply (now : Int) (pre rest : List TautulliItem)
    (it : TautulliItem) (hpre : ∀ x ∈ pre, ¬ x.user_id = it.user_id) :
    applyToUser now (pre ++ it :: rest) (applyToUser now rest (freshUser now it))
      = applyToUser now rest (freshUser now it) := by
  rw [applyToUser_char now rest (freshUser now it),
    applyToUser_char now (pre ++ it :: rest)]
  simp only [freshUser]
  rw [lastTouch_append, selTs_append,
    lastTouch_no_touch it.user_id pre hpre,
    selTs_no_touch _ now pre _ (fun x hx => by simp [userSel, hpre x hx])]
  have hself : userSel it.user_id it = true := by simp [userSel]
  have hbump : bump (selTs (userSel it.user_id) now rest (effectiveTs now it))
      (effectiveTs now it)
      = selTs (userSel it.user_id) now rest (effectiveTs now it) :=
    bump_absorb _ _ (selTs_ge _ _ _ _)
  cases hx : lastTouch it.user_id rest <;>
    simp [lastTouch, selTs, hx, hself, hbump, selTs_absorb]

theorem newUsers_map_fixed (now : Int) :
    ∀ (A pre : List TautulliItem) (seen : List Int),
      (∀ x ∈ pre, x.user_id ∈ seen) →
      (newUsers now seen A).map (applyToUser now (pre ++ A)) = newUsers now seen A := by
  intro A
  induction A with
  | nil => intro pre seen _; rfl
  | cons it rest ih =>
    intro pre seen hpre
    unfold newUsers
    by_cases hc : it.user_id ∈ seen
    · rw [if_pos hc, List.append_cons]
      apply ih (pre ++ [it]) seen
      intro x hx
      rcases List.mem_append.mp hx with h1 | h1
      · exact hpre x h1
      · rw [List.mem_singleton] at h1
        subst h1
        exact hc
    · rw [if_neg hc, List.map_cons]
      have hnew : ∀ x ∈ pre, ¬ x.user_id = it.user_id := by
        intro x hx hh
        exact hc (hh ▸ hpre x hx)
      rw [applyToUser_reapply now pre rest it hnew, List.append_cons]
      rw [ih (pre ++ [it]) (it.user_id :: seen) ?_]
      intro x hx
      rcases List.mem_append.mp hx with h1 | h1
      · exact List.mem_cons_of_mem _ (hpre x h1)
      · rw [List.mem_singleton] at h1
        subst h1
        exact List.mem_cons_self _ _

theorem newUsers_nil_of_seen (now : Int) :
    ∀ (A : List TautulliItem) (seen : List Int),
      (∀ it ∈ A, it.user_id ∈ seen) → newUsers now seen A = [] := by
  intro A
  induction A with
  | nil => intro seen _; rfl
  | cons it rest ih =>
    intro seen h
    unfold newUsers
    rw [if_pos (h it (List.mem_cons_self it rest))]
    exact ih seen (fun x hx => h x (List.mem_cons_of_mem it hx))

theorem newUsers_ids_complete (now : Int) :
    ∀ (A : List TautulliItem) (seen : List Int), ∀ it ∈ A,
      it.user_id ∈ seen ∨ it.user_id ∈ (newUsers now seen A).map fun r => r.id := by
  intro A
  induction A with
  | nil => intro seen it hit; cases hit
  | cons x rest ih =>
    intro seen it hit
    unfold newUsers
    by_cases hc : x.user_id ∈ seen
    · rw [if_pos hc]
      rcases List.mem_cons.mp hit with rfl | h2
      · exact Or.inl hc
      · exact ih seen it h2
    · rw [if_neg hc]
      rcases List.mem_cons.mp hit with rfl | h2
      · right
        rw [List.map_cons]
        refine List.mem_cons.mpr (Or.inl ?_)
        rw [applyToUser_id]
        rfl
      · rcases ih (x.user_id :: seen) it h2 with h3 | h3
        · rcases List.mem_cons.mp h3 with h4 | h4
          · right
            rw [List.map_cons]
            refine List.mem_cons.mpr (Or.inl ?_)
            rw [applyToUser_id]
            exact h4
          · exact Or.inl h4
        · right
          rw [List.map_cons]
          exact List.mem_cons.mpr (Or.inr h3)

theorem usersFold_idem (now : Int) (A : List TautulliItem) (us : List UserRow) :
    usersFold now A (usersFold now A us) = usersFold now A us := by
  rw [usersFold_shape now A (usersFold now A us), usersFold_shape now A us,
    List.map_append, List.map_map]
  have h1 : us.map (applyToUser now A ∘ applyToUser now A) = us.map (applyToUser now A) :=
    List.map_congr_left (fun r _ => applyToUser_idem now A r)
  have h2 := newUsers_map_fixed now A [] (us.map fun r => r.id) (fun x hx => by cases hx)
  rw [List.nil_append] at h2
  have h3 : newUsers now
      (((us.map (applyToUser now A) ++ newUsers now (us.map fun r => r.id) A).map
        fun r => r.id)) A = [] := by
    apply newUsers_nil_of_seen
    intro it hit
    rw [List.map_append, List.map_map]
    rcases newUsers_ids_complete now A (us.map fun r => r.id) it hit with h | h
    · apply List.mem_append_left
      rw [show ((fun r => r.id) ∘ applyToUser now A) = (fun (r : UserRow) => r.id)
        from funext fun r => applyToUser_id now A r]
      exact h
    · exact List.mem_append_right _ h
  rw [h1, h2, h3, List.append_nil]

/-- The per-row effect of one item's history upsert (the DO UPDATE arm). -/
def pairUpd (now : Int) (it : TautulliItem) (r : IPRow) : IPRow :=
  match itemIP it with
  | some ip =>
    if r.user_id = it.user_id ∧ r.ip = ip then
      { r with last_seen := bump r.last_seen (effectiveTs now it) }
    else r
  | none => r

/-- The history row one item inserts when its (user, address) key is absent. -/
def freshPair (now : Int) (it : TautulliItem) (ip : String) (nid : Nat) : IPRow :=
  ⟨nid, it.user_id, ip, effectiveTs now it, effectiveTs now it⟩

/-- Replay of a whole batch against one history row. -/
def applyToPair (now : Int) (A : List TautulliItem) (r : IPRow) : IPRow :=
  A.foldl (fun r it => pairUpd now it r) r

/-- Does an item carry an observation for the pair (u, s)? -/
def pairSel (u : Int) (s : String) (it : TautulliItem) : Bool :=
  match itemIP it with
  | some ip => decide (u = it.user_id ∧ s = ip)
  | none => false

theorem upsertIP_branches (now : Int) (it : TautulliItem) (ip : String)
    (hip : itemIP it = some ip) (h : List IPRow) (nid : Nat) :
    upsertIP it.user_id ip (effectiveTs now it) h nid
      = if h.any fun r => r.user_id = it.user_id ∧ r.ip = ip
        then (h.map (pairUpd now it), nid)
        else (h ++ [freshPair now it ip nid], nid + 1) := by
  unfold upsertIP
  split
  · refine congrArg (fun L => (L, nid)) (List.map_congr_left ?_)
    intro r _
    unfold pairUpd
    simp only [hip]
  · rfl

theorem applyToPair_cons (now : Int) (it : TautulliItem) (rest : List TautulliItem)
    (r : IPRow) :
    applyToPair now (it :: rest) r = applyToPair now rest (pairUpd now it r) := rfl

theorem applyToPair_char (now : Int) :
    ∀ (A : List TautulliItem) (r : IPRow),
      applyToPair now A r
        = ⟨r.rowid, r.user_id, r.ip, r.first_seen,
           selTs (pairSel r.user_id r.ip) now A r.last_seen⟩ := by
  intro A
  induction A with
  | nil => intro r; rfl
  | cons it rest ih =>
    intro r
    rw [applyToPair_cons]
    cases hip : itemIP it with
    | none =>
      have hupd : pairUpd now it r = r := by
        unfold pairUpd
        simp only [hip]
      have hsel : pairSel r.user_id r.ip it = false := by
        unfold pairSel
        simp only [hip]
      rw [hupd, ih]
      simp [selTs, hsel]
    | some ip =>
      by_cases hc : r.user_id = it.user_id ∧ r.ip = ip
      · have hupd : pairUpd now it r
            = ⟨r.rowid, r.user_id, r.ip, r.first_seen,
               bump r.last_seen (effectiveTs now it)⟩ := by
          unfold pairUpd
          simp only [hip]
          rw [if_pos hc]
        have hsel : pairSel r.user_id r.ip it = true := by
          unfold pairSel
          simp only [hip]
          simp [hc.1, hc.2]
        rw [hupd, ih]
        simp [selTs, hsel]
      · have hupd : pairUpd now it r = r := by
          unfold pairUpd
          simp only [hip]
          rw [if_neg hc]
        have hsel : pairSel r.user_id r.ip it = false := by
          unfold pairSel
          simp only [hip]
          simpa using hc
        rw [hupd, ih]
        simp [selTs, hsel]

theorem applyToPair_idem (now : Int) (A : List TautulliItem) (r : IPRow) :
    applyToPair now A (applyToPair now A r) = applyToPair now A r := by
  rw [applyToPair_char now A r, applyToPair_char now A]
  simp [selTs_absorb]

/-- The rows a batch appends to `user_ip_history`, with their AUTOINCREMENT
ids, one per (user, address) key not yet present, in first-occurrence order. -/
def newPairs (now : Int) :
    List (Int × String) → Nat → List TautulliItem → List IPRow
  | _, _, [] => []
  | seen, nid, it :: rest =>
    match itemIP it with
    | none => newPairs now seen nid rest
    | some ip =>
      if (it.user_id, ip) ∈ seen then newPairs now seen nid rest
      else applyToPair now rest (freshPair now it ip nid)
        :: newPairs now ((it.user_id, ip) :: seen) (nid + 1) rest

theorem newPairs_cons_none (now : Int) (seen : List (Int × String)) (nid : Nat)
    (it : TautulliItem) (rest : List TautulliItem) (hip : itemIP it = none) :
    newPairs now seen nid (it :: rest) = newPairs now seen nid rest := by
  conv_lhs => rw [newPairs]
  rw [hip]

theorem newPairs_cons_some (now : Int) (seen : List (Int × String)) (nid : Nat)
    (it : TautulliItem) (rest : List TautulliItem) (ip : String)
    (hip : itemIP it = some ip) :
    newPairs now seen nid (it :: rest)
      = if (it.user_id, ip) ∈ seen then newPairs now seen nid rest
        else applyToPair now rest (freshPair now it ip nid)
          :: newPairs now ((it.user_id, ip) :: seen) (nid + 1) rest := by
  conv_lhs => rw [newPairs]
  rw [hip]

/-- One step of the history component of the transaction loop. -/
def histStep (now : Int) (p : List IPRow × Nat) (it : TautulliItem) :
    List IPRow × Nat :=
  match itemIP it with
  | some ip => upsertIP it.user_id ip (effectiveTs now it) p.1 p.2
  | none => p

/-- The history-table component (rows and AUTOINCREMENT counter) of the loop. -/
def histFold (now : Int) (A : List TautulliItem) (p : List IPRow × Nat) :
    List IPRow × Nat :=
  A.foldl (histStep now) p

theorem histStep_none (now : Int) (p : List IPRow × Nat) (it : TautulliItem)
    (hip : itemIP it = none) : histStep now p it = p := by
  unfold histStep
  rw [hip]

theorem histStep_some (now : Int) (p : List IPRow × Nat) (it : TautulliItem)
    (ip : String) (hip : itemIP it = some ip) :
    histStep now p it = upsertIP it.user_id ip (effectiveTs now it) p.1 p.2 := by
  unfold histStep
  rw [hip]

theorem histFold_cons (now : Int) (it : TautulliItem) (rest : List TautulliItem)
    (p : List IPRow × Nat) :
    histFold now (it :: rest) p = histFold now rest (histStep now p it) := rfl

/-- The (user, address) keys of stored history rows. -/
def pairKeys (h : List IPRow) : List (Int × String) := h.map fun r => (r.user_id, r.ip)

theorem newPairs_congr (now : Int) :
    ∀ (A : List TautulliItem) (s t : List (Int × String)) (nid : Nat),
      (∀ z, z ∈ s ↔ z ∈ t) → newPairs now s nid A = newPairs now t nid A := by
  intro A
  induction A with
  | nil => intro s t nid _; rfl
  | cons it rest ih =>
    intro s t nid hst
    cases hip : itemIP it with
    | none =>
      rw [newPairs_cons_none now s nid it rest hip,
        newPairs_cons_none now t nid it rest hip]
      exact ih s t nid hst
    | some ip =>
      rw [newPairs_cons_some now s nid it rest ip hip,
        newPairs_cons_some now t nid it rest ip hip]
      by_cases hc : (it.user_id, ip) ∈ s
      · rw [if_pos hc, if_pos ((hst _).mp hc)]
        exact ih s t nid hst
      · rw [if_neg hc, if_neg (fun hh => hc ((hst _).mpr hh))]
        rw [ih ((it.user_id, ip) :: s) ((it.user_id, ip) :: t) (nid + 1)
          (fun z => by simp [hst z])]

theorem pairUpd_key (now : Int) (it : TautulliItem) (r : IPRow) :
    (pairUpd now it r).user_id = r.user_id ∧ (pairUpd now it r).ip = r.ip := by
  unfold pairUpd
  cases itemIP it with
  | none => exact ⟨rfl, rfl⟩
  | some ip =>
    by_cases hc : r.user_id = it.user_id ∧ r.ip = ip <;> simp [hc]

theorem histFold_shape (now : Int) :
    ∀ (A : List TautulliItem) (h : List IPRow) (n : Nat),
      histFold now A (h, n)
        = (h.map (applyToPair now A) ++ newPairs now (pairKeys h) n A,
           n + (newPairs now (pairKeys h) n A).length) := by
  intro A
  induction A with
  | nil =>
    intro h n
    rw [show applyToPair now [] = id from funext fun r => rfl]
    simp [histFold, newPairs]
  | cons it rest ih =>
    intro h n
    rw [histFold_cons]
    cases hip : itemIP it with
    | none =>
      rw [histStep_none now (h, n) it hip, ih h n,
        newPairs_cons_none now (pairKeys h) n it rest hip]
      have hap : applyToPair now (it :: rest) = applyToPair now rest := by
        funext r
        rw [applyToPair_cons,
          show pairUpd now it r = r from by unfold pairUpd; simp only [hip]]
      rw [hap]
    | some ip =>
      rw [histStep_some now (h, n) it ip hip,
        upsertIP_branches now it ip hip h n,
        newPairs_cons_some now (pairKeys h) n it rest ip hip]
      have hiff : ((h.any fun r => r.user_id = it.user_id ∧ r.ip = ip) = true)
          ↔ (it.user_id, ip) ∈ pairKeys h := by
        rw [List.any_eq_true]
        constructor
        · rintro ⟨r, hr, hp⟩
          have h2 := of_decide_eq_true hp
          exact List.mem_map.mpr ⟨r, hr, by rw [h2.1, h2.2]⟩
        · intro hmem
          obtain ⟨r, hr, hkey⟩ := List.mem_map.mp hmem
          rw [Prod.mk.injEq] at hkey
          exact ⟨r, hr, by simp [hkey.1, hkey.2]⟩
      by_cases hmem : (it.user_id, ip) ∈ pairKeys h
      · rw [if_pos (hiff.mpr hmem), if_pos hmem, ih (h.map (pairUpd now it)) n]
        have hkeys : pairKeys (h.map (pairUpd now it)) = pairKeys h := by
          unfold pairKeys
          rw [List.map_map]
          apply List.map_congr_left
          intro r _
          show ((pairUpd now it r).user_id, (pairUpd now it r).ip) = (r.user_id, r.ip)
          rw [(pairUpd_key now it r).1, (pairUpd_key now it r).2]
        have hcomp : applyToPair now rest ∘ pairUpd now it = applyToPair now (it :: rest) :=
          funext fun r => rfl
        rw [List.map_map, hcomp, hkeys]
      · rw [if_neg (fun hh => hmem (hiff.mp hh)), if_neg hmem,
          ih (h ++ [freshPair now it ip n]) (n + 1)]
        have hkeys2 : pairKeys (h ++ [freshPair now it ip n])
            = pairKeys h ++ [(it.user_id, ip)] := by
          unfold pairKeys
          rw [List.map_append]
          rfl
        rw [hkeys2,
          newPairs_congr now rest (pairKeys h ++ [(it.user_id, ip)])
            ((it.user_id, ip) :: pairKeys h) (n + 1) (fun z => by simp [or_comm]),
          List.map_append]
        have hmap : h.map (applyToPair now rest) = h.map (applyToPair now (it :: rest)) := by
          apply List.map_congr_left
          intro r hr
          rw [applyToPair_cons]
          have hupd : pairUpd now it r = r := by
            unfold pairUpd
            simp only [hip]
            rw [if_neg (fun hh => hmem (List.mem_map.mpr ⟨r, hr, by rw [hh.1, hh.2]⟩))]
          rw [hupd]
        rw [hmap]
        refine Prod.ext ?_ ?_
        · show (h.map (applyToPair now (it :: rest))
              ++ [applyToPair now rest (freshPair now it ip n)])
              ++ newPairs now ((it.user_id, ip) :: pairKeys h) (n + 1) rest
            = h.map (applyToPair now (it :: rest))
              ++ (applyToPair now rest (freshPair now it ip n)
                :: newPairs now ((it.user_id, ip) :: pairKeys h) (n + 1) rest)
          rw [List.append_assoc]
          rfl
        · show (n + 1) + (newPairs now ((it.user_id, ip) :: pairKeys h) (n + 1) rest).length
            = n + (applyToPair now rest (freshPair now it ip n)
                :: newPairs now ((it.user_id, ip) :: pairKeys h) (n + 1) rest).length
          rw [List.length_cons]
          omega

theorem applyToPair_reapply (now : Int) (pre rest : List TautulliItem)
    (it : TautulliItem) (ip : String) (nid : Nat) (hip : itemIP it = some ip)
    (hpre : ∀ x ∈ pre, pairSel it.user_id ip x = false) :
    applyToPair now (pre ++ it :: rest)
        (applyToPair now rest (freshPair now it ip nid))
      = applyToPair now rest (freshPair now it ip nid) := by
  rw [applyToPair_char now rest (freshPair now it ip nid),
    applyToPair_char now (pre ++ it :: rest)]
  simp only [freshPair]
  rw [selTs_append, selTs_no_touch _ now pre _ hpre]
  have hself : pairSel it.user_id ip it = true := by
    unfold pairSel
    simp only [hip]
    simp
  have hbump : bump (selTs (pairSel it.user_id ip) now rest (effectiveTs now it))
      (effectiveTs now it)
      = selTs (pairSel it.user_id ip) now rest (effectiveTs now it) :=
    bump_absorb _ _ (selTs_ge _ _ _ _)
  simp [selTs, hself, hbump, selTs_absorb]

theorem newPairs_map_fixed (now : Int) :
    ∀ (A pre : List TautulliItem) (seen : List (Int × String)) (nid : Nat),
      (∀ x ∈ pre, ∀ ipx, itemIP x = some ipx → (x.user_id, ipx) ∈ seen) →
      (newPairs now seen nid A).map (applyToPair now (pre ++ A))
        = newPairs now seen nid A := by
  intro A
  induction A with
  | nil => intro pre seen nid _; rfl
  | cons it rest ih =>
    intro pre seen nid hpre
    cases hip : itemIP it with
    | none =>
      rw [newPairs_cons_none now seen nid it rest hip, List.append_cons]
      apply ih (pre ++ [it]) seen nid
      intro x hx ipx hipx
      rcases List.mem_append.mp hx with h1 | h1
      · exact hpre x h1 ipx hipx
      · rw [List.mem_singleton] at h1
        subst h1
        rw [hip] at hipx
        cases hipx
    | some ip =>
      rw [newPairs_cons_some now seen nid it rest ip hip]
      by_cases hc : (it.user_id, ip) ∈ seen
      · rw [if_pos hc, List.append_cons]
        apply ih (pre ++ [it]) seen nid
        intro x hx ipx hipx
        rcases List.mem_append.mp hx with h1 | h1
        · exact hpre x h1 ipx hipx
        · rw [List.mem_singleton] at h1
          subst h1
          rw [hip] at hipx
          cases hipx
          exact hc
      · rw [if_neg hc, List.map_cons]
        have hpre2 : ∀ x ∈ pre, pairSel it.user_id ip x = false := by
          intro x hx
          unfold pairSel
          cases hipx : itemIP x with
          | none => rfl
          | some ipx =>
            have hmem := hpre x hx ipx hipx
            simp only [decide_eq_false_iff_not]
            rintro ⟨h1, h2⟩
            exact hc (by rw [h1, h2]; exact hmem)
        rw [applyToPair_reapply now pre rest it ip nid hip hpre2, List.append_cons]
        rw [ih (pre ++ [it]) ((it.user_id, ip) :: seen) (nid + 1) ?_]
        intro x hx ipx hipx
        rcases List.mem_append.mp hx with h1 | h1
        · exact List.mem_cons_of_mem _ (hpre x h1 ipx hipx)
        · rw [List.mem_singleton] at h1
          subst h1
          rw [hip] at hipx
          cases hipx
          exact List.mem_cons_self _ _

theorem newPairs_nil_of_seen (now : Int) :
    ∀ (A : List TautulliItem) (seen : List (Int × String)) (nid : Nat),
      (∀ it ∈ A, ∀ ip, itemIP it = some ip → (it.user_id, ip) ∈ seen) →
      newPairs now seen nid A = [] := by
  intro A
  induction A with
  | nil => intro seen nid _; rfl
  | cons it rest ih =>
    intro seen nid h
    cases hip : itemIP it with
    | none =>
      rw [newPairs_cons_none now seen nid it rest hip]
      exact ih seen nid (fun x hx => h x (List.mem_cons_of_mem it hx))
    | some ip =>
      rw [newPairs_cons_some now seen nid it rest ip hip,
        if_pos (h it (List.mem_cons_self it rest) ip hip)]
      exact ih seen nid (fun x hx => h x (List.mem_cons_of_mem it hx))

theorem newPairs_keys_complete (now : Int) :
    ∀ (A : List TautulliItem) (seen : List (Int × String)) (nid : Nat),
      ∀ it ∈ A, ∀ ip, itemIP it = some ip →
        (it.user_id, ip) ∈ seen
          ∨ (it.user_id, ip) ∈ pairKeys (newPairs now seen nid A) := by
  intro A
  induction A with
  | nil => intro seen nid it hit; cases hit
  | cons x rest ih =>
    intro seen nid it hit ip hip
    cases hipx : itemIP x with
    | none =>
      rw [newPairs_cons_none now seen nid x rest hipx]
      rcases List.mem_cons.mp hit with rfl | h2
      · rw [hipx] at hip
        cases hip
      · exact ih seen nid it h2 ip hip
    | some ipx =>
      rw [newPairs_cons_some now seen nid x rest ipx hipx]
      by_cases hc : (x.user_id, ipx) ∈ seen
      · rw [if_pos hc]
        rcases List.mem_cons.mp hit with rfl | h2
        · rw [hipx] at hip
          cases hip
          exact Or.inl hc
        · exact ih seen nid it h2 ip hip
      · rw [if_neg hc]
        rcases List.mem_cons.mp hit with rfl | h2
        · rw [hipx] at hip
          cases hip
          right
          unfold pairKeys
          rw [List.map_cons]
          refine List.mem_cons.mpr (Or.inl ?_)
          rw [applyToPair_char]
          rfl
        · rcases ih ((x.user_id, ipx) :: seen) (nid + 1) it h2 ip hip with h3 | h3
          · rcases List.mem_cons.mp h3 with h4 | h4
            · right
              unfold pairKeys
              rw [List.map_cons]
              refine List.mem_cons.mpr (Or.inl ?_)
              rw [h4, applyToPair_char]
              rfl
            · exact Or.inl h4
          · right
            unfold pairKeys
            rw [List.map_cons]
            refine List.mem_cons.mpr (Or.inr ?_)
            exact h3

theorem histFold_idem (now : Int) (A : List TautulliItem) (h : List IPRow) (n : Nat) :
    histFold now A (histFold now A (h, n)) = histFold now A (h, n) := by
  rw [histFold_shape now A h n,
    histFold_shape now A
      (h.map (applyToPair now A) ++ newPairs now (pairKeys h) n A)
      (n + (newPairs now (pairKeys h) n A).length)]
  have hkeys : ∀ it ∈ A, ∀ ip, itemIP it = some ip →
      (it.user_id, ip) ∈ pairKeys
        (h.map (applyToPair now A) ++ newPairs now (pairKeys h) n A) := by
    intro it hit ip hip
    unfold pairKeys
    rw [List.map_append, List.map_map]
    rcases newPairs_keys_complete now A (pairKeys h) n it hit ip hip with h1 | h1
    · apply List.mem_append_left
      rw [show ((fun r => (r.user_id, r.ip)) ∘ applyToPair now A)
          = (fun (r : IPRow) => (r.user_id, r.ip))
        from funext fun r => by rw [Function.comp_apply, applyToPair_char]]
      exact h1
    · exact List.mem_append_right _ h1
  rw [newPairs_nil_of_seen now A _ _ hkeys, List.append_nil,
    List.map_append, List.map_map]
  have h1 : h.map (applyToPair now A ∘ applyToPair now A) = h.map (applyToPair now A) :=
    List.map_congr_left fun r _ => applyToPair_idem now A r
  have h2 := newPairs_map_fixed now A [] (pairKeys h) n (fun x hx => by cases hx)
  rw [List.nil_append] at h2
  rw [h1, h2]
  simp

theorem ingestItems_decompose (now : Int) :
    ∀ (A : List TautulliItem) (db : DB),
      ingestItems now A db
        = ⟨usersFold now A db.users,
           (histFold now A (db.history, db.nextId)).1,
           (histFold now A (db.history, db.nextId)).2⟩ := by
  intro A
  induction A with
  | nil => intro db; rfl
  | cons it rest ih =>
    intro db
    rw [ingestItems_cons, ih (ingestItem now db it)]
    have h1 : (ingestItem now db it).users = upsertUser it (effectiveTs now it) db.users :=
      ingestItem_users now db it
    have h2 : ((ingestItem now db it).history, (ingestItem now db it).nextId)
        = histStep now (db.history, db.nextId) it := by
      cases hip : itemIP it with
      | none =>
        rw [histStep_none now _ it hip]
        simp [ingestItem, hip]
      | some ip =>
        rw [histStep_some now _ it ip hip]
        simp [ingestItem, hip]
    rw [h1, h2]
    rfl

/-- C3: ingesting the same batch twice in sequence (with the same effective
timestamps) leaves exactly the stored state of the first application: no user
or history row is added, changed, or reordered, and no watermark moves. -/
theorem c3_reingest_idempotent (now : Int) (arr : List TautulliItem) (db : DB) :
    ingestItems now arr (ingestItems now arr db) = ingestItems now arr db := by
  rw [ingestItems_decompose now arr db, ingestItems_decompose now arr]
  show DB.mk (usersFold now arr (usersFold now arr db.users))
      (histFold now arr ((histFold now arr (db.history, db.nextId)).1,
        (histFold now arr (db.history, db.nextId)).2)).1
      (histFold now arr ((histFold now arr (db.history, db.nextId)).1,
        (histFold now arr (db.history, db.nextId)).2)).2
    = DB.mk (usersFold now arr db.users)
        (histFold now arr (db.history, db.nextId)).1
        (histFold now arr (db.history, db.nextId)).2
  rw [usersFold_idem,
    show ((histFold now arr (db.history, db.nextId)).1,
      (histFold now arr (db.history, db.nextId)).2)
      = histFold now arr (db.history, db.nextId) from rfl,
    histFold_idem now arr db.history db.nextId]
